import Mathlib

/-!
Verification of the ExitMatrix routing kernel (`server.js`).

Shallow embedding of the data model and operations:
grid parsing, hazard zone expansion (`createFireZoneMap`), validity of moves
(`isValidMove`), the A* planner (`findPath`) with its lexicographic
(f, fireZoneCrossings) frontier selection, natural-language instruction
generation (`generateNaturalInstructions`), the strict/relaxed two-phase
orchestration (`updateInstructions`), the persisted payloads, and the
snapshot listener with its retry wrapper (`exponentialBackoff`).

JavaScript arrays of characters become `List Char`; positions are pairs of
integers (moves may step to coordinate -1 before the bounds check rejects
them); the mutable open/closed sets of the search become explicit lists
threaded through a fuel-indexed loop; the parent chain used for path
reconstruction becomes the accumulated reversed position list stored in
each node (parents are always already-closed, hence immutable, nodes).
-/

namespace ExitMatrix

/-- A grid cell position: `x` is the column, `y` is the row. -/
structure Pos where
  x : Int
  y : Int
deriving DecidableEq, Repr

/-- A floor map: rows of single-character cell codes. -/
abbrev Grid := List (List Char)

/-- `map[0].length` in the source: the width taken from the first row. -/
def width (m : Grid) : Nat := (m.headD []).length

/-- `map.length`: the number of rows. -/
def height (m : Grid) : Nat := m.length

/-- Cell lookup by natural-number coordinates (out of range reads give `' '`,
a code that is never compared equal by any of the guarded accesses). -/
def cellAtN (m : Grid) (x y : Nat) : Char := (m.getD y []).getD x ' '

/-- Cell lookup by integer coordinates; every use in the source is guarded by
a bounds check, so the clamping of negative coordinates is never observable. -/
def cellAt (m : Grid) (x y : Int) : Char := cellAtN m x.toNat y.toNat

/-- In-place write of one cell (`fireZoneMap[newY][newX] = "Z"`). -/
def setCell (m : Grid) (x y : Nat) (c : Char) : Grid :=
  m.set y ((m.getD y []).set x c)

/-- `findPosition`: scan rows top-to-bottom, columns left-to-right, return
the first cell holding `target`. -/
def findPosition (m : Grid) (target : Char) : Option Pos :=
  go m 0
where
  goRow (row : List Char) (x : Nat) (y : Nat) : Option Pos :=
    match row with
    | [] => none
    | c :: rest => if c = target then some ⟨x, y⟩ else goRow rest (x + 1) y
  go (rows : Grid) (y : Nat) : Option Pos :=
    match rows with
    | [] => none
    | r :: rest =>
      match goRow r 0 y with
      | some p => some p
      | none => go rest (y + 1)

/-- The nine `(dy, dx)` offsets scanned by the nested neighbor loops of
`createFireZoneMap`, in source order (`dy` outer, `dx` inner). -/
def fireDeltas : List (Int × Int) :=
  [(-1, -1), (-1, 0), (-1, 1), (0, -1), (0, 0), (0, 1), (1, -1), (1, 0), (1, 1)]

/-- One iteration of the inner neighbor loops: mark the cell at offset `d`
from the fire cell `(x, y)` as `'Z'` when it is in bounds and currently
holds neither `'F'` nor `'0'`. -/
def markStep (m : Grid) (x y : Nat) (fz : Grid) (d : Int × Int) : Grid :=
  let newX : Int := (x : Int) + d.2
  let newY : Int := (y : Int) + d.1
  if 0 ≤ newX ∧ newX < (width m : Int) ∧ 0 ≤ newY ∧ newY < (height m : Int) then
    if cellAt fz newX newY ≠ 'F' ∧ cellAt fz newX newY ≠ '0' then
      setCell fz newX.toNat newY.toNat 'Z'
    else fz
  else fz

/-- The body of the two inner loops over the nine neighbor offsets. -/
def markNeighbors (m : Grid) (x y : Nat) (fz : Grid) : Grid :=
  fireDeltas.foldl (markStep m x y) fz

/-- Row-major list of `(y, x)` indices visited by the outer loops of
`createFireZoneMap` (the inner bound is the length of row `y`). -/
def gridIndices (m : Grid) : List (Nat × Nat) :=
  (List.range m.length).flatMap fun y =>
    (List.range (m.getD y []).length).map fun x => (y, x)

/-- One iteration of the outer scan: expand around `(yx.1, yx.2)` when the
original grid holds fire there. -/
def fireStep (m : Grid) (fz : Grid) (yx : Nat × Nat) : Grid :=
  if cellAtN m yx.2 yx.1 = 'F' then markNeighbors m yx.2 yx.1 fz else fz

/-- `createFireZoneMap`: copy the grid, then for every `'F'` cell of the
original grid mark its in-bounds non-`'F'`/non-`'0'` neighbors as `'Z'`. -/
def createFireZoneMap (m : Grid) : Grid :=
  (gridIndices m).foldl (fireStep m) m

/-- `isValidMove`: inside the bounds, not a wall (`'0'`), not fire (`'F'`),
and not a fire zone (`'Z'`) unless crossing fire zones is allowed. -/
def isValidMove (m fz : Grid) (x y : Int) (allowFireZone : Bool) : Bool :=
  if x < 0 ∨ (width m : Int) ≤ x ∨ y < 0 ∨ (height m : Int) ≤ y then false
  else if cellAt m x y = '0' ∨ cellAt m x y = 'F' then false
  else if !allowFireZone ∧ cellAt fz x y = 'Z' then false
  else true

/-- `calculateHeuristic`: Manhattan distance. -/
def calculateHeuristic (a b : Pos) : Nat :=
  (a.x - b.x).natAbs + (a.y - b.y).natAbs

/-- A frontier node of the search.  `path` is the reversed position chain
from this node back to the start — the shallow rendering of the mutable
`parent` pointers (a parent is always an already-finalized node, so its
chain never changes afterwards). -/
structure Node where
  pos : Pos
  g : Nat
  h : Nat
  f : Nat
  path : List Pos
  crossings : Nat
deriving Repr

/-- The four unit moves `(dx, dy)`, in source order. -/
def moves : List (Int × Int) := [(-1, 0), (1, 0), (0, -1), (0, 1)]

/-- The frontier scan of the source: walk the open list keeping the node with
the smallest `f`, breaking ties toward fewer `fireZoneCrossings`; earlier
indices win remaining ties.  Returns the chosen node and its index. -/
def selMinAux : List Node → Node → Nat → Nat → Node × Nat
  | [], cur, curIdx, _ => (cur, curIdx)
  | n :: rest, cur, curIdx, i =>
    if n.f < cur.f ∨ (n.f = cur.f ∧ n.crossings < cur.crossings) then
      selMinAux rest n i (i + 1)
    else
      selMinAux rest cur curIdx (i + 1)

/-- One crossing is charged when the destination cell is a fire zone. -/
def zCost (fz : Grid) (p : Pos) : Nat := if cellAt fz p.x p.y = 'Z' then 1 else 0

/-- Replace the first node satisfying `q` (the in-place field update of the
`existingNode` found by `openSet.find`). -/
def updateFirst (q : Node → Bool) (f : Node → Node) : List Node → List Node
  | [] => []
  | n :: rest => if q n then f n :: rest else n :: updateFirst q f rest

/-- Processing of a single move from `cur`: bounds/validity check, closed-set
check, then push a fresh node or lower an existing frontier entry when the
new `g` is smaller, or equal with fewer crossings. -/
def processMove (m fz : Grid) (goal : Pos) (allow : Bool) (closed : List Pos)
    (cur : Node) (openSet : List Node) (mv : Int × Int) : List Node :=
  let newX := cur.pos.x + mv.1
  let newY := cur.pos.y + mv.2
  if isValidMove m fz newX newY allow then
    let newPos : Pos := ⟨newX, newY⟩
    if newPos ∈ closed then openSet
    else
      let g := cur.g + 1
      let h := calculateHeuristic newPos goal
      let f := g + h
      let crossings := cur.crossings + zCost fz newPos
      match openSet.find? (fun n => n.pos.x == newX && n.pos.y == newY) with
      | none =>
        openSet ++ [{ pos := newPos, g := g, h := h, f := f,
                      path := newPos :: cur.path, crossings := crossings }]
      | some ex =>
        if g < ex.g ∨ (g = ex.g ∧ crossings < ex.crossings) then
          updateFirst (fun n => n.pos.x == newX && n.pos.y == newY)
            (fun n => { pos := n.pos, g := g, h := n.h, f := f,
                        path := newPos :: cur.path, crossings := crossings })
            openSet
        else openSet
  else openSet

/-- Expansion of the popped node: the four moves in order, each reading the
open list left by the previous one. -/
def expand (m fz : Grid) (goal : Pos) (allow : Bool) (closed : List Pos)
    (cur : Node) (openSet : List Node) : List Node :=
  moves.foldl (processMove m fz goal allow closed cur) openSet

/-- Result of a search: a reconstructed path, the definitive `null`, or the
fuel-exhaustion marker (proved unreachable below). -/
inductive SearchResult where
  | found (p : List Pos)
  | noPath
  | outOfFuel
deriving DecidableEq, Repr

/-- The `while (openSet.length > 0)` loop, indexed by fuel.  Each iteration
selects the minimum-`(f, crossings)` node, returns its reconstructed path if
it is the goal, and otherwise finalizes it and expands its neighbors. -/
def findPathLoop (m fz : Grid) (goal : Pos) (allow : Bool) :
    Nat → List Node → List Pos → SearchResult
  | _, [], _ => .noPath
  | 0, _ :: _, _ => .outOfFuel
  | fuel + 1, hd :: tl, closed =>
    let sel := selMinAux tl hd 0 1
    let current := sel.1
    if current.pos = goal then .found current.path.reverse
    else
      let openSet' := (hd :: tl).eraseIdx sel.2
      let closed' := current.pos :: closed
      findPathLoop m fz goal allow fuel
        (expand m fz goal allow closed' current openSet') closed'

/-- `findPath`: A* from `start` to `goal`.  The start node carries `f = 0`
exactly as in the source.  `width * height + 1` fuel is enough for the loop
to run to completion (proved below). -/
def findPath (m fz : Grid) (start goal : Pos) (allow : Bool) : SearchResult :=
  let startNode : Node :=
    { pos := start, g := 0, h := calculateHeuristic start goal, f := 0,
      path := [start], crossings := 0 }
  findPathLoop m fz goal allow (width m * height m + 1) [startNode] []

/-- `getDirection`: the cardinal direction of a unit step (`null` when the
two positions coincide on both axes in turn). -/
def getDirection (fr dst : Pos) : Option String :=
  if fr.x < dst.x then some "east"
  else if dst.x < fr.x then some "west"
  else if fr.y < dst.y then some "south"
  else if dst.y < fr.y then some "north"
  else none

/-- `indexOf` on the fixed direction cycle, `-1` for anything absent
(mirroring the JavaScript `Array.prototype.indexOf`). -/
def directionIndex (s : Option String) : Int :=
  match s with
  | none => -1
  | some t =>
    match (["north", "east", "south", "west"].findIdx? (fun d => d = t)) with
    | some i => (i : Int)
    | none => -1

/-- `getTurn`: the relative turn between two directions on the cyclic order
north, east, south, west. -/
def getTurn (fr : String) (dst : Option String) : Option String :=
  let dif := (directionIndex dst - directionIndex (some fr) + 4) % 4
  if dif = 1 then some "right"
  else if dif = 3 then some "left"
  else if dif = 2 then some "around"
  else none

/-- `addInstruction`: append one straight-line instruction, annotated with
the upcoming turn when there is one. -/
def addInstruction (dist : Nat) (turn : Option String) (ins : List String) : List String :=
  let base := "Go straight " ++ toString (dist * 10) ++ " meters"
  match turn with
  | some t => ins ++ [base ++ " and turn " ++ t]
  | none => ins ++ [base]

/-- The folded body of the instruction loop: state is the current direction,
the accumulated run length, and the instructions emitted so far. -/
def genLoop : List (Pos × Pos) → Option String → Nat → List String →
    Option String × Nat × List String
  | [], cd, dist, ins => (cd, dist, ins)
  | (prev, curr) :: rest, cd, dist, ins =>
    let nd := getDirection prev curr
    if nd ≠ cd then
      match cd with
      | some c => genLoop rest nd 1 (addInstruction dist (getTurn c nd) ins)
      | none => genLoop rest nd 1 ins
    else genLoop rest cd (dist + 1) ins

/-- `generateNaturalInstructions`: merge consecutive same-direction steps,
flush the final run, then append the fixed closing instruction. -/
def generateNaturalInstructions (path : List Pos) : List String :=
  let st := genLoop (path.zip path.tail) none 0 []
  addInstruction st.2.1 none st.2.2 ++ ["You have reached the exit"]

/-- The result record produced by one planning pass. -/
structure UpdateResult where
  path : Option (List Pos)
  instructions : List String
  warning : String
deriving DecidableEq, Repr

/-- `updateInstructions`: expand hazards, run the strict search, fall back to
the relaxed search with a warning, and finally the terminal no-path payload.
The planner receives the expanded grid as both the map and the hazard mask,
exactly as in the source. -/
def updateInstructions (m : Grid) (userPosition exitPosition : Pos) : UpdateResult :=
  let fireZoneMap := createFireZoneMap m
  match findPath fireZoneMap fireZoneMap userPosition exitPosition false with
  | .found p => { path := some p, instructions := generateNaturalInstructions p, warning := "" }
  | _ =>
    match findPath fireZoneMap fireZoneMap userPosition exitPosition true with
    | .found p =>
      { path := some p, instructions := generateNaturalInstructions p,
        warning := "WARNING: This path passes through fire zones. Proceed with extreme caution!" }
    | _ =>
      { path := none,
        instructions := ["ERROR: No path to exit found. Seek immediate assistance!"],
        warning := "No safe path to exit available." }

/-- `layout.split("|").map(row => row.split(""))`. -/
def parseLayout (layout : List Char) : Grid := layout.splitOn '|'

/-- `map.map(row => row.join("")).join("|")`. -/
def serializeLayout (m : Grid) : List Char := List.intercalate ['|'] m

/-- The record written to the persistence sink.  The source builds two object
literals: the success payload carries the `layout` key, the no-path payload
does not — `layout = none` renders the absent key. -/
structure UpdatedData where
  layout : Option (List Char)
  warning : String
  instructions : List String
  currentInstructionIndex : Int
deriving DecidableEq, Repr

/-- One recompute over a layout string, from parsing to the payload handed to
the sink: locate `'U'` and `'S'` (`none` when either is missing — no write
happens), plan, stamp `'P'` markers on the path cells of the original map
that are not `'U'`, `'S'` or `'F'`, and build the payload. -/
def processLayout (layout : List Char) : Option UpdatedData :=
  let m := parseLayout layout
  match findPosition m 'U', findPosition m 'S' with
  | some user, some exitPos =>
    let r := updateInstructions m user exitPos
    match r.path with
    | some p =>
      let m2 := p.foldl
        (fun acc pos =>
          if cellAt acc pos.x pos.y ≠ 'U' ∧ cellAt acc pos.x pos.y ≠ 'S' ∧
              cellAt acc pos.x pos.y ≠ 'F' then
            setCell acc pos.x.toNat pos.y.toNat 'P'
          else acc)
        m
      some { layout := some (serializeLayout m2), warning := r.warning,
             instructions := r.instructions, currentInstructionIndex := 0 }
    | none =>
      some { layout := none,
             warning := "ERROR: No path to exit found. Seek immediate assistance!",
             instructions := ["No safe path to exit available. Seek immediate assistance!"],
             currentInstructionIndex := -1 }
  | _, _ => none

/-- Observable state of the snapshot listener.  `writeOutcomes` is the
schedule of results the persistence sink returns to successive write
attempts (`false` = the write rejects); `cycles` counts entries into the
"layout changed" branch, `pathfindRuns` counts planner invocations,
`writeAttempts` counts persistence writes, `delays` logs every backoff
sleep in milliseconds. -/
structure ListenerState where
  isProcessing : Bool
  lastProcessedLayout : Option (List Char)
  cycles : Nat
  pathfindRuns : Nat
  writeAttempts : Nat
  writeOutcomes : List Bool
  delays : List Nat
deriving DecidableEq, Repr

/-- One invocation of the closure handed to `exponentialBackoff`: skip when
the fingerprint is unchanged, otherwise record it, recompute, and attempt the
persistence write.  The returned flag is `false` when the closure throws
(that is, when the write rejects). -/
def runAttempt (layout : List Char) (st : ListenerState) : ListenerState × Bool :=
  if st.lastProcessedLayout = some layout then (st, true)
  else
    let st := { st with lastProcessedLayout := some layout, cycles := st.cycles + 1 }
    match processLayout layout with
    | none => (st, true)
    | some _ =>
      let st := { st with pathfindRuns := st.pathfindRuns + 1,
                          writeAttempts := st.writeAttempts + 1 }
      match st.writeOutcomes with
      | [] => (st, true)
      | ok :: rest => ({ st with writeOutcomes := rest }, ok)

/-- `exponentialBackoff(operation, maxRetries, baseDelay)`: run the
operation; on failure, rethrow if this was the last attempt, otherwise sleep
`baseDelay * 2 ^ i` and try again.  `remaining` counts attempts left,
`i` is the attempt index. -/
def exponentialBackoff (layout : List Char) (baseDelay : Nat) :
    Nat → Nat → ListenerState → ListenerState × Bool
  | 0, _, st => (st, true)
  | remaining + 1, i, st =>
    let r := runAttempt layout st
    if r.2 then (r.1, true)
    else if remaining = 0 then (r.1, false)
    else
      exponentialBackoff layout baseDelay remaining (i + 1)
        { r.1 with delays := r.1.delays ++ [baseDelay * 2 ^ i] }

/-- Delivery of one snapshot to the listener: drop it when a cycle is in
flight, otherwise run the backoff-wrapped closure with `maxRetries = 5`
and `baseDelay = 1000`; the busy flag is cleared in `finally`, and an
exhausted backoff only reaches the error log (the returned flag). -/
def deliverSnapshot (layout : List Char) (st : ListenerState) : ListenerState × Bool :=
  if st.isProcessing then (st, true)
  else
    let r := exponentialBackoff layout 1000 5 0 { st with isProcessing := true }
    ({ r.1 with isProcessing := false }, r.2)

/-! ### Specification-side notions used by the theorems -/

/-- The grid invariant of the data model: all rows have the length of the
first row. -/
def Rectangular (m : Grid) : Prop := ∀ r ∈ m, r.length = width m

instance (m : Grid) : Decidable (Rectangular m) :=
  inferInstanceAs (Decidable (∀ r ∈ m, r.length = width m))

/-- The positions reachable from `p` in one of the four unit moves. -/
def stepTargets (p : Pos) : List Pos := moves.map fun d => ⟨p.x + d.1, p.y + d.2⟩

/-- `q` is one unit move away from `p`. -/
def IsMove (p q : Pos) : Prop := q ∈ stepTargets p

instance (p q : Pos) : Decidable (IsMove p q) :=
  inferInstanceAs (Decidable (q ∈ stepTargets p))

/-- A route from `s` to `t` as the planner understands it: starts at `s`,
ends at `t`, takes only unit moves, and every cell after the start passes
`isValidMove` (the start cell itself is never checked by the source). -/
def OkPath (m fz : Grid) (allow : Bool) (s t : Pos) (l : List Pos) : Prop :=
  l.head? = some s ∧ l.getLast? = some t ∧ l.Chain' IsMove ∧
    ∀ q ∈ l.tail, isValidMove m fz q.x q.y allow = true

instance (m fz : Grid) (allow : Bool) (s t : Pos) (l : List Pos) :
    Decidable (OkPath m fz allow s t l) :=
  inferInstanceAs (Decidable (l.head? = some s ∧ l.getLast? = some t ∧
    l.Chain' IsMove ∧ ∀ q ∈ l.tail, isValidMove m fz q.x q.y allow = true))

/-- Number of fire-zone cells a route enters (the start cell is free, as in
the accumulated `fireZoneCrossings`). -/
def pathCrossings (fz : Grid) (l : List Pos) : Nat := (l.tail.map (zCost fz)).sum

/-- Lexicographic comparison of (length, crossings) costs. -/
def costLe (a b : Nat × Nat) : Prop := a.1 < b.1 ∨ (a.1 = b.1 ∧ a.2 ≤ b.2)

/-- Strict lexicographic comparison of costs. -/
def costLt (a b : Nat × Nat) : Prop := a.1 < b.1 ∨ (a.1 = b.1 ∧ a.2 < b.2)

/-- Cost of a route: edge count and crossings. -/
def pathCost (fz : Grid) (l : List Pos) : Nat × Nat := (l.length - 1, pathCrossings fz l)

theorem costLe_refl (a : Nat × Nat) : costLe a a := Or.inr ⟨rfl, le_refl _⟩

theorem costLe_trans {a b c : Nat × Nat} (h1 : costLe a b) (h2 : costLe b c) :
    costLe a c := by
  rcases h1 with h1 | ⟨h1, h1'⟩ <;> rcases h2 with h2 | ⟨h2, h2'⟩
  · exact Or.inl (h1.trans h2)
  · exact Or.inl (h2 ▸ h1)
  · exact Or.inl (h1 ▸ h2)
  · exact Or.inr ⟨h1.trans h2, h1'.trans h2'⟩

theorem costLt_of_not_le {a b : Nat × Nat} (h : ¬ costLe a b) : costLt b a := by
  unfold costLe at h
  unfold costLt
  omega

theorem costLe_of_lt {a b : Nat × Nat} (h : costLt a b) : costLe a b := by
  unfold costLt at h; unfold costLe; omega

theorem not_costLt_of_le {a b : Nat × Nat} (h : costLe a b) : ¬ costLt b a := by
  unfold costLe at h; unfold costLt; omega

theorem costLe_step {a b : Nat × Nat} (z : Nat) (h : costLe a b) :
    costLe (a.1 + 1, a.2 + z) (b.1 + 1, b.2 + z) := by
  unfold costLe at h ⊢; dsimp only; omega

theorem costLe_zero (b : Nat × Nat) : costLe (0, 0) b := by
  unfold costLe; omega

/-! ### Hazard expansion: exact characterization (`createFireZoneMap`) -/

/-- Equal outer length and row lengths. -/
def SameDims (a b : Grid) : Prop :=
  a.length = b.length ∧ ∀ v, (a.getD v []).length = (b.getD v []).length

theorem sameDims_refl (a : Grid) : SameDims a a := ⟨rfl, fun _ => rfl⟩

theorem sameDims_trans {a b c : Grid} (h1 : SameDims a b) (h2 : SameDims b c) :
    SameDims a c := ⟨h1.1.trans h2.1, fun v => (h1.2 v).trans (h2.2 v)⟩

theorem getD_set_list {α : Type} (l : List α) (i j : Nat) (a d : α) :
    (l.set i a).getD j d = if i = j ∧ i < l.length then a else l.getD j d := by
  simp only [List.getD_eq_getElem?_getD, List.getElem?_set]
  split_ifs with h1 h2 h3 h4 <;> simp_all
  · omega
  · rw [List.getElem?_eq_none (by omega)]; simp

theorem setCell_length (g : Grid) (x y : Nat) (c : Char) :
    (setCell g x y c).length = g.length := List.length_set ..

theorem setCell_sameDims (g : Grid) (x y : Nat) (c : Char) :
    SameDims (setCell g x y c) g := by
  refine ⟨List.length_set .., fun v => ?_⟩
  unfold setCell
  rw [getD_set_list]
  split_ifs with h
  · rw [h.1, List.length_set]
  · rfl

theorem cellAtN_setCell (g : Grid) (x y u v : Nat) (c : Char) :
    cellAtN (setCell g x y c) u v =
      if y = v ∧ x = u ∧ y < g.length ∧ x < (g.getD y []).length then c
      else cellAtN g u v := by
  unfold cellAtN setCell
  rw [getD_set_list]
  split_ifs with h1 h2 h3
  · rw [getD_set_list, if_pos ⟨h2.2.1, h2.2.2.2⟩]
  · rw [getD_set_list, if_neg ?miss]
    · rw [h1.1]
    · intro hc
      exact h2 ⟨h1.1, hc.1, h1.2, hc.2⟩
  · exact absurd ⟨h3.1, h3.2.2.1⟩ h1
  · rfl

theorem rect_row_len {m : Grid} (hrect : Rectangular m) {v : Nat} (hv : v < m.length) :
    (m.getD v []).length = width m := by
  have hmem : m.getD v [] ∈ m := by
    rw [List.getD_eq_getElem?_getD, List.getElem?_eq_getElem hv]
    exact List.getElem_mem ..
  exact hrect _ hmem

/-- The cells already marked by the processed prefix `done` of the outer
scan: some processed index holds fire within Chebyshev distance 1. -/
def fireHit (m : Grid) (done : List (Nat × Nat)) (u v : Nat) : Prop :=
  ∃ p ∈ done, cellAtN m p.2 p.1 = 'F' ∧
    ((p.2 : Int) - u).natAbs ≤ 1 ∧ ((p.1 : Int) - v).natAbs ≤ 1

instance (m : Grid) (done : List (Nat × Nat)) (u v : Nat) :
    Decidable (fireHit m done u v) := by
  unfold fireHit; infer_instance

/-- Invariant of the outer fold of `createFireZoneMap`. -/
def FireInv (m : Grid) (done : List (Nat × Nat)) (fz : Grid) : Prop :=
  SameDims fz m ∧
    ∀ u v, u < width m → v < height m →
      cellAtN fz u v =
        if cellAtN m u v ≠ 'F' ∧ cellAtN m u v ≠ '0' ∧ fireHit m done u v then 'Z'
        else cellAtN m u v

theorem fireHit_append (m : Grid) (d1 d2 : List (Nat × Nat)) (u v : Nat) :
    fireHit m (d1 ++ d2) u v ↔ fireHit m d1 u v ∨ fireHit m d2 u v := by
  unfold fireHit
  constructor
  · rintro ⟨p, hp, hrest⟩
    rcases List.mem_append.mp hp with h | h
    · exact Or.inl ⟨p, h, hrest⟩
    · exact Or.inr ⟨p, h, hrest⟩
  · rintro (⟨p, hp, hrest⟩ | ⟨p, hp, hrest⟩)
    · exact ⟨p, List.mem_append.mpr (Or.inl hp), hrest⟩
    · exact ⟨p, List.mem_append.mpr (Or.inr hp), hrest⟩

theorem fireDeltas_hit_iff (x y u v : Nat) :
    (∃ d ∈ fireDeltas, (x : Int) + d.2 = u ∧ (y : Int) + d.1 = v) ↔
      ((x : Int) - u).natAbs ≤ 1 ∧ ((y : Int) - v).natAbs ≤ 1 := by
  constructor
  · rintro ⟨d, hd, hx, hy⟩
    simp only [fireDeltas, List.mem_cons, List.not_mem_nil, or_false] at hd
    rcases hd with h | h | h | h | h | h | h | h | h <;> subst h <;>
      simp only [Prod.fst, Prod.snd] at hx hy <;> omega
  · rintro ⟨hx, hy⟩
    have ha : (u : Int) - x = -1 ∨ (u : Int) - x = 0 ∨ (u : Int) - x = 1 := by omega
    have hb : (v : Int) - y = -1 ∨ (v : Int) - y = 0 ∨ (v : Int) - y = 1 := by omega
    rcases ha with ha | ha | ha <;> rcases hb with hb | hb | hb
    · exact ⟨(-1, -1), by simp [fireDeltas], by omega, by omega⟩
    · exact ⟨(0, -1), by simp [fireDeltas], by omega, by omega⟩
    · exact ⟨(1, -1), by simp [fireDeltas], by omega, by omega⟩
    · exact ⟨(-1, 0), by simp [fireDeltas], by omega, by omega⟩
    · exact ⟨(0, 0), by simp [fireDeltas], by omega, by omega⟩
    · exact ⟨(1, 0), by simp [fireDeltas], by omega, by omega⟩
    · exact ⟨(-1, 1), by simp [fireDeltas], by omega, by omega⟩
    · exact ⟨(0, 1), by simp [fireDeltas], by omega, by omega⟩
    · exact ⟨(1, 1), by simp [fireDeltas], by omega, by omega⟩

/-- Effect of a single neighbor-marking step on one cell. -/
theorem markStep_cell {m : Grid} (hrect : Rectangular m) (x y : Nat) {fz : Grid}
    (hdims : SameDims fz m) (d : Int × Int) (u v : Nat)
    (hu : u < width m) (hv : v < height m) :
    cellAtN (markStep m x y fz d) u v =
      if ((x : Int) + d.2 = u ∧ (y : Int) + d.1 = v) ∧
          cellAtN fz u v ≠ 'F' ∧ cellAtN fz u v ≠ '0' then 'Z'
      else cellAtN fz u v := by
  unfold markStep
  set newX : Int := (x : Int) + d.2 with hnewX
  set newY : Int := (y : Int) + d.1 with hnewY
  by_cases hb : 0 ≤ newX ∧ newX < (width m : Int) ∧ 0 ≤ newY ∧ newY < (height m : Int)
  · rw [if_pos hb]
    by_cases hc : cellAt fz newX newY ≠ 'F' ∧ cellAt fz newX newY ≠ '0'
    · rw [if_pos hc]
      rw [cellAtN_setCell]
      by_cases hhit : newX = (u : Int) ∧ newY = (v : Int)
      · have hXu : newX.toNat = u := by omega
        have hYv : newY.toNat = v := by omega
        have hylen : newY.toNat < fz.length := by
          rw [hdims.1]; change _ < height m; omega
        have hxlen : newX.toNat < (fz.getD newY.toNat []).length := by
          rw [hdims.2, rect_row_len hrect (by change newY.toNat < height m at *; omega)]
          omega
        rw [if_pos ⟨hYv, hXu, hylen, hxlen⟩, if_pos]
        have hcell : cellAt fz newX newY = cellAtN fz u v := by
          unfold cellAt; rw [hXu, hYv]
        exact ⟨⟨hhit.1, hhit.2⟩, by rw [← hcell]; exact hc.1, by rw [← hcell]; exact hc.2⟩
      · have hne : ¬(newY.toNat = v ∧ newX.toNat = u ∧ newY.toNat < fz.length ∧
            newX.toNat < (fz.getD newY.toNat []).length) := by
          rintro ⟨h1, h2, -, -⟩
          exact hhit ⟨by omega, by omega⟩
        rw [if_neg hne, if_neg]
        rintro ⟨⟨h1, h2⟩, -, -⟩
        exact hhit ⟨by omega, by omega⟩
    · rw [if_neg hc, if_neg]
      rintro ⟨⟨h1, h2⟩, hF, h0⟩
      have hcell : cellAt fz newX newY = cellAtN fz u v := by
        unfold cellAt; rw [show newX.toNat = u by omega, show newY.toNat = v by omega]
      rw [hcell] at hc
      exact hc ⟨hF, h0⟩
  · rw [if_neg hb, if_neg]
    rintro ⟨⟨h1, h2⟩, -, -⟩
    exact hb ⟨by omega, by omega, by omega, by omega⟩

theorem markStep_sameDims {m : Grid} (x y : Nat) {fz : Grid} (hdims : SameDims fz m)
    (d : Int × Int) : SameDims (markStep m x y fz d) m := by
  simp only [markStep]
  split_ifs <;> first
    | exact sameDims_trans (setCell_sameDims ..) hdims
    | exact hdims

/-- The cell holds `'F'` (resp. `'0'`) after a marking step iff it did
before: the step only writes `'Z'`. -/
theorem markStep_code_stable {m : Grid} (hrect : Rectangular m) (x y : Nat) {fz : Grid}
    (hdims : SameDims fz m) (d : Int × Int) (u v : Nat)
    (hu : u < width m) (hv : v < height m) (c : Char) (hcF : c = 'F' ∨ c = '0') :
    (cellAtN (markStep m x y fz d) u v = c ↔ cellAtN fz u v = c) := by
  rw [markStep_cell hrect x y hdims d u v hu hv]
  split_ifs with h
  · constructor
    · intro hz
      rcases hcF with rfl | rfl <;> exact absurd hz.symm (by decide)
    · intro hc
      rcases hcF with rfl | rfl
      · exact absurd hc h.2.1
      · exact absurd hc h.2.2
  · exact Iff.rfl

/-- Marking all nine neighbor offsets of the fire cell `(x, y)`. -/
theorem markFold_spec {m : Grid} (hrect : Rectangular m) (x y : Nat) :
    ∀ (ds : List (Int × Int)) (fz : Grid), SameDims fz m →
      SameDims (ds.foldl (markStep m x y) fz) m ∧
      ∀ u v, u < width m → v < height m →
        cellAtN (ds.foldl (markStep m x y) fz) u v =
          if (∃ d ∈ ds, (x : Int) + d.2 = u ∧ (y : Int) + d.1 = v) ∧
              cellAtN fz u v ≠ 'F' ∧ cellAtN fz u v ≠ '0' then 'Z'
          else cellAtN fz u v := by
  intro ds
  induction ds with
  | nil =>
    intro fz hdims
    refine ⟨hdims, fun u v hu hv => ?_⟩
    simp
  | cons d ds ih =>
    intro fz hdims
    have hdims1 : SameDims (markStep m x y fz d) m := markStep_sameDims x y hdims d
    obtain ⟨ihdims, ihcell⟩ := ih (markStep m x y fz d) hdims1
    refine ⟨by simpa using ihdims, fun u v hu hv => ?_⟩
    rw [List.foldl_cons, ihcell u v hu hv]
    have hcell1 := markStep_cell hrect x y hdims d u v hu hv
    by_cases hcode : cellAtN fz u v ≠ 'F' ∧ cellAtN fz u v ≠ '0'
    · by_cases hdhit : (x : Int) + d.2 = u ∧ (y : Int) + d.1 = v
      · have h1 : cellAtN (markStep m x y fz d) u v = 'Z' := by
          rw [hcell1, if_pos ⟨hdhit, hcode⟩]
        rw [h1, if_pos (show (∃ d' ∈ d :: ds, (x : Int) + d'.2 = u ∧ (y : Int) + d'.1 = v) ∧
            cellAtN fz u v ≠ 'F' ∧ cellAtN fz u v ≠ '0' from
          ⟨⟨d, List.mem_cons_self .., hdhit⟩, hcode⟩)]
        split_ifs <;> rfl
      · have h1 : cellAtN (markStep m x y fz d) u v = cellAtN fz u v := by
          rw [hcell1, if_neg (fun hc => hdhit hc.1)]
        rw [h1]
        by_cases hrest : ∃ d' ∈ ds, (x : Int) + d'.2 = u ∧ (y : Int) + d'.1 = v
        · rw [if_pos ⟨hrest, hcode⟩]
          obtain ⟨d', hd', hh⟩ := hrest
          rw [if_pos ⟨⟨d', List.mem_cons_of_mem _ hd', hh⟩, hcode⟩]
        · rw [if_neg (fun hc => hrest hc.1), if_neg]
          rintro ⟨⟨d', hd', hh⟩, -⟩
          rcases List.mem_cons.mp hd' with rfl | hmem
          · exact hdhit hh
          · exact hrest ⟨d', hmem, hh⟩
    · have h1 : cellAtN (markStep m x y fz d) u v = cellAtN fz u v := by
        rw [hcell1, if_neg (fun hc => hcode hc.2)]
      rw [h1, if_neg (fun hc => hcode hc.2), if_neg (fun hc => hcode hc.2)]

theorem markNeighbors_code_stable {m : Grid} (hrect : Rectangular m) (x y : Nat)
    {fz : Grid} (hdims : SameDims fz m) (u v : Nat)
    (hu : u < width m) (hv : v < height m) (c : Char) (hcF : c = 'F' ∨ c = '0') :
    (cellAtN (markNeighbors m x y fz) u v = c ↔ cellAtN fz u v = c) := by
  obtain ⟨-, hcell⟩ := markFold_spec hrect x y fireDeltas fz hdims
  rw [markNeighbors, hcell u v hu hv]
  split_ifs with h
  · constructor
    · intro hz
      rcases hcF with rfl | rfl <;> exact absurd hz.symm (by decide)
    · intro hcc
      rcases hcF with rfl | rfl
      · exact absurd hcc h.2.1
      · exact absurd hcc h.2.2
  · exact Iff.rfl

/-- The outer scan maintains `FireInv`. -/
theorem fireFold_spec {m : Grid} (hrect : Rectangular m) :
    ∀ (L done : List (Nat × Nat)) (fz : Grid), FireInv m done fz →
      FireInv m (done ++ L) (L.foldl (fireStep m) fz) := by
  intro L
  induction L with
  | nil => intro done fz h; simpa using h
  | cons p L ih =>
    intro done fz hinv
    have hstep : FireInv m (done ++ [p]) (fireStep m fz p) := by
      unfold fireStep
      by_cases hf : cellAtN m p.2 p.1 = 'F'
      · rw [if_pos hf]
        obtain ⟨hdims, hcell⟩ := hinv
        obtain ⟨hdims2, hcell2⟩ := markFold_spec hrect p.2 p.1 fireDeltas fz hdims
        unfold markNeighbors
        refine ⟨hdims2, fun u v hu hv => ?_⟩
        rw [hcell2 u v hu hv]
        have hfz := hcell u v hu hv
        have hhit := fireDeltas_hit_iff p.2 p.1 u v
        by_cases hcode : cellAtN m u v ≠ 'F' ∧ cellAtN m u v ≠ '0'
        · by_cases hold : fireHit m done u v
          · have hfzZ : cellAtN fz u v = 'Z' := by
              rw [hfz, if_pos ⟨hcode.1, hcode.2, hold⟩]
            rw [hfzZ,
              if_pos (show cellAtN m u v ≠ 'F' ∧ cellAtN m u v ≠ '0' ∧
                  fireHit m (done ++ [p]) u v from
                ⟨hcode.1, hcode.2, (fireHit_append m done [p] u v).mpr (Or.inl hold)⟩)]
            split_ifs <;> rfl
          · have hfzm : cellAtN fz u v = cellAtN m u v := by
              rw [hfz, if_neg (fun hc => hold hc.2.2)]
            rw [hfzm]
            by_cases hnear : ((p.2 : Int) - u).natAbs ≤ 1 ∧ ((p.1 : Int) - v).natAbs ≤ 1
            · rw [if_pos ⟨hhit.mpr hnear, hcode⟩,
                if_pos ⟨hcode.1, hcode.2, (fireHit_append m done [p] u v).mpr
                  (Or.inr ⟨p, List.mem_singleton.mpr rfl, hf, hnear⟩)⟩]
            · rw [if_neg (fun hc => hnear (hhit.mp hc.1)), if_neg]
              rintro ⟨-, -, hhit2⟩
              rcases (fireHit_append m done [p] u v).mp hhit2 with hc | ⟨q, hq, -, hnear2⟩
              · exact hold hc
              · rw [List.mem_singleton.mp hq] at hnear2
                exact hnear hnear2
        · have hfzm : cellAtN fz u v = cellAtN m u v := by
            rw [hfz, if_neg (fun hc => hcode ⟨hc.1, hc.2.1⟩)]
          rw [hfzm, if_neg (fun hc => hcode hc.2), if_neg (fun hc => hcode ⟨hc.1, hc.2.1⟩)]
      · rw [if_neg hf]
        obtain ⟨hdims, hcell⟩ := hinv
        refine ⟨hdims, fun u v hu hv => ?_⟩
        rw [hcell u v hu hv]
        have : fireHit m (done ++ [p]) u v ↔ fireHit m done u v := by
          rw [fireHit_append]
          constructor
          · rintro (h | ⟨q, hq, hfq, -⟩)
            · exact h
            · rw [List.mem_singleton.mp hq] at hfq
              exact absurd hfq hf
          · exact Or.inl
        by_cases hc : cellAtN m u v ≠ 'F' ∧ cellAtN m u v ≠ '0' ∧ fireHit m done u v
        · rw [if_pos hc, if_pos ⟨hc.1, hc.2.1, this.mpr hc.2.2⟩]
        · rw [if_neg hc, if_neg (fun hcc => hc ⟨hcc.1, hcc.2.1, this.mp hcc.2.2⟩)]
    have := ih (done ++ [p]) (fireStep m fz p) hstep
    simpa [List.append_assoc] using this

theorem mem_gridIndices {m : Grid} (p : Nat × Nat) :
    p ∈ gridIndices m ↔ p.1 < m.length ∧ p.2 < (m.getD p.1 []).length := by
  unfold gridIndices
  rcases p with ⟨y, x⟩
  simp only [List.mem_flatMap, List.mem_map, List.mem_range, Prod.mk.injEq]
  constructor
  · rintro ⟨y', hy', x', hx', rfl, rfl⟩
    exact ⟨hy', hx'⟩
  · rintro ⟨hy, hx⟩
    exact ⟨y, hy, x, hx, rfl, rfl⟩

/-- Exact pointwise characterization of `createFireZoneMap` on rectangular
grids: dimensions are preserved and a cell becomes `'Z'` exactly when it is
neither fire nor wall and lies within Chebyshev distance 1 of some fire
cell; every other cell keeps its original value. -/
theorem createFireZoneMap_spec {m : Grid} (hrect : Rectangular m) :
    SameDims (createFireZoneMap m) m ∧
      ∀ u v, u < width m → v < height m →
        cellAtN (createFireZoneMap m) u v =
          if cellAtN m u v ≠ 'F' ∧ cellAtN m u v ≠ '0' ∧
              (∃ fx < width m, ∃ fy < height m, cellAtN m fx fy = 'F' ∧
                ((fx : Int) - u).natAbs ≤ 1 ∧ ((fy : Int) - v).natAbs ≤ 1)
          then 'Z' else cellAtN m u v := by
  have hinv0 : FireInv m [] m := by
    refine ⟨sameDims_refl m, fun u v hu hv => ?_⟩
    rw [if_neg]
    rintro ⟨-, -, q, hq, -⟩
    exact absurd hq (List.not_mem_nil q)
  have hinv := fireFold_spec hrect (gridIndices m) [] m hinv0
  rw [List.nil_append] at hinv
  obtain ⟨hdims, hcell⟩ := hinv
  unfold createFireZoneMap
  refine ⟨hdims, fun u v hu hv => ?_⟩
  rw [hcell u v hu hv]
  have hiff : fireHit m (gridIndices m) u v ↔
      (∃ fx < width m, ∃ fy < height m, cellAtN m fx fy = 'F' ∧
        ((fx : Int) - u).natAbs ≤ 1 ∧ ((fy : Int) - v).natAbs ≤ 1) := by
    unfold fireHit
    constructor
    · rintro ⟨p, hp, hf, hx, hy⟩
      obtain ⟨hy', hx'⟩ := (mem_gridIndices p).mp hp
      refine ⟨p.2, ?_, p.1, hy', hf, hx, hy⟩
      rw [rect_row_len hrect hy'] at hx'
      exact hx'
    · rintro ⟨fx, hx', fy, hy', hf, hx, hy⟩
      refine ⟨(fy, fx), (mem_gridIndices _).mpr ⟨hy', ?_⟩, hf, hx, hy⟩
      rw [rect_row_len hrect hy']
      exact hx'
  by_cases h : cellAtN m u v ≠ 'F' ∧ cellAtN m u v ≠ '0' ∧ fireHit m (gridIndices m) u v
  · rw [if_pos h, if_pos ⟨h.1, h.2.1, hiff.mp h.2.2⟩]
  · rw [if_neg h, if_neg]
    rintro ⟨h1, h2, h3⟩
    exact h ⟨h1, h2, hiff.mpr h3⟩

/-! ### Path and move lemmas -/

theorem isMove_iff (p q : Pos) :
    IsMove p q ↔
      (q.x = p.x - 1 ∧ q.y = p.y) ∨ (q.x = p.x + 1 ∧ q.y = p.y) ∨
        (q.x = p.x ∧ q.y = p.y - 1) ∨ (q.x = p.x ∧ q.y = p.y + 1) := by
  obtain ⟨qx, qy⟩ := q
  simp only [IsMove, stepTargets, moves, List.map_cons, List.map_nil, List.mem_cons,
    List.not_mem_nil, or_false, Pos.mk.injEq]
  omega

theorem isMove_ne {p q : Pos} (h : IsMove p q) : p ≠ q := by
  rw [isMove_iff] at h
  intro hc
  subst hc
  omega

theorem exists_move_of_isMove {p q : Pos} (h : IsMove p q) :
    ∃ mv ∈ moves, q = ⟨p.x + mv.1, p.y + mv.2⟩ := by
  simp only [IsMove, stepTargets, List.mem_map] at h
  obtain ⟨mv, hmv, rfl⟩ := h
  exact ⟨mv, hmv, rfl⟩

theorem heu_step {p q : Pos} (b : Pos) (h : IsMove p q) :
    calculateHeuristic p b ≤ calculateHeuristic q b + 1 := by
  rw [isMove_iff] at h
  unfold calculateHeuristic
  omega

/-- Manhattan consistency along a chain of unit moves: the heuristic at the
head is at most the number of steps plus the heuristic at the last element. -/
theorem chain_heu (b : Pos) :
    ∀ (l : List Pos) (p z : Pos), List.Chain' IsMove (p :: l) →
      (p :: l).getLast? = some z →
      calculateHeuristic p b ≤ l.length + calculateHeuristic z b := by
  intro l
  induction l with
  | nil =>
    intro p z _ hlast
    simp only [List.getLast?_singleton, Option.some.injEq] at hlast
    subst hlast
    simp
  | cons q l ih =>
    intro p z hchain hlast
    have h1 : IsMove p q := (List.chain'_cons.mp hchain).1
    have h2 := ih q z (List.chain'_cons.mp hchain).2 hlast
    have h3 := heu_step b h1
    simp only [List.length_cons]
    omega

theorem tail_append_cons (l₁ : List Pos) (v : Pos) (l₂ : List Pos) :
    (l₁ ++ v :: l₂).tail = (l₁ ++ [v]).tail ++ l₂ := by
  cases l₁ <;> simp

theorem pathCrossings_append_cons (fz : Grid) (l₁ : List Pos) (v : Pos) (l₂ : List Pos) :
    pathCrossings fz (l₁ ++ v :: l₂) =
      pathCrossings fz (l₁ ++ [v]) + (l₂.map (zCost fz)).sum := by
  unfold pathCrossings
  rw [tail_append_cons, List.map_append, List.sum_append]

theorem pathCrossings_concat (fz : Grid) (l : List Pos) (w : Pos) (h : l ≠ []) :
    pathCrossings fz (l ++ [w]) = pathCrossings fz l + zCost fz w := by
  unfold pathCrossings
  rw [List.tail_append_of_ne_nil h, List.map_append, List.sum_append]
  simp

/-- A prefix of a valid route, cut just after some position `v`, is a valid
route to `v`. -/
theorem okPath_prefix {m fz : Grid} {allow : Bool} {s z v : Pos} {l₁ l₂ : List Pos}
    (h : OkPath m fz allow s z (l₁ ++ v :: l₂)) : OkPath m fz allow s v (l₁ ++ [v]) := by
  obtain ⟨hhead, hlast, hchain, hvalid⟩ := h
  have hassoc : l₁ ++ v :: l₂ = (l₁ ++ [v]) ++ l₂ := by simp
  refine ⟨?_, List.getLast?_concat _, ?_, ?_⟩
  · cases l₁ with
    | nil => simpa using hhead
    | cons a l₁ => simpa using hhead
  · rw [hassoc] at hchain
    exact (List.chain'_append.mp hchain).1
  · intro q hq
    refine hvalid q ?_
    cases l₁ with
    | nil => simp at hq
    | cons a l₁ =>
      simp only [List.cons_append, List.tail_cons] at hq ⊢
      rw [List.mem_append] at hq
      rcases hq with hq | hq
      · exact List.mem_append.mpr (Or.inl hq)
      · simp only [List.mem_singleton] at hq
        subst hq
        exact List.mem_append.mpr (Or.inr (List.mem_cons_self ..))

/-- The suffix of a valid route starting at the cut position is a chain to
the endpoint. -/
theorem okPath_suffix_facts {m fz : Grid} {allow : Bool} {s z v : Pos} {l₁ l₂ : List Pos}
    (h : OkPath m fz allow s z (l₁ ++ v :: l₂)) :
    List.Chain' IsMove (v :: l₂) ∧ (v :: l₂).getLast? = some z := by
  obtain ⟨-, hlast, hchain, -⟩ := h
  constructor
  · exact (List.chain'_append.mp hchain).2.1
  · rw [List.getLast?_append_of_ne_nil _ (by simp)] at hlast
    exact hlast

theorem okPath_nonempty {m fz : Grid} {allow : Bool} {s z : Pos} {l : List Pos}
    (h : OkPath m fz allow s z l) : l ≠ [] := by
  intro hc
  subst hc
  exact absurd h.1 (by simp)

theorem valid_inBounds {m fz : Grid} {allow : Bool} {x y : Int}
    (h : isValidMove m fz x y allow = true) :
    0 ≤ x ∧ x < (width m : Int) ∧ 0 ≤ y ∧ y < (height m : Int) := by
  unfold isValidMove at h
  split_ifs at h with h1 h2 h3
  omega

/-! ### Frontier selection, removal and update lemmas -/

/-- The selection preorder of the frontier scan: smaller `f`, ties broken by
crossings. -/
def selLe (a b : Node) : Prop :=
  a.f < b.f ∨ (a.f = b.f ∧ a.crossings ≤ b.crossings)

theorem selLe_refl (a : Node) : selLe a a := Or.inr ⟨rfl, le_refl _⟩

theorem selLe_trans {a b c : Node} (h1 : selLe a b) (h2 : selLe b c) : selLe a c := by
  unfold selLe at h1 h2 ⊢
  omega

theorem selMinAux_min :
    ∀ (rest : List Node) (cur : Node) (ci i : Nat),
      ((selMinAux rest cur ci i).1 = cur ∨ (selMinAux rest cur ci i).1 ∈ rest) ∧
        selLe (selMinAux rest cur ci i).1 cur ∧
        ∀ nd ∈ rest, selLe (selMinAux rest cur ci i).1 nd := by
  intro rest
  induction rest with
  | nil =>
    intro cur ci i
    exact ⟨Or.inl rfl, selLe_refl cur, by simp⟩
  | cons n rest ih =>
    intro cur ci i
    rw [selMinAux]
    split_ifs with hcond
    · obtain ⟨hmem, hle, hall⟩ := ih n i (i + 1)
      have hnc : selLe n cur := Or.imp id (fun hh => ⟨hh.1, le_of_lt hh.2⟩) hcond
      refine ⟨?_, selLe_trans hle hnc, fun nd hnd => ?_⟩
      · rcases hmem with h | h
        · exact Or.inr (by rw [h]; exact List.mem_cons_self ..)
        · exact Or.inr (List.mem_cons_of_mem _ h)
      · rcases List.mem_cons.mp hnd with rfl | h
        · exact hle
        · exact hall nd h
    · obtain ⟨hmem, hle, hall⟩ := ih cur ci (i + 1)
      have hcn : selLe cur n := by
        unfold selLe
        push_neg at hcond
        omega
      refine ⟨?_, hle, fun nd hnd => ?_⟩
      · rcases hmem with h | h
        · exact Or.inl h
        · exact Or.inr (List.mem_cons_of_mem _ h)
      · rcases List.mem_cons.mp hnd with rfl | h
        · exact selLe_trans hle hcn
        · exact hall nd h

theorem selMinAux_get :
    ∀ (rest : List Node) (cur : Node) (ci i : Nat) (O : List Node),
      O[ci]? = some cur → O.drop i = rest → ci < i →
      O[(selMinAux rest cur ci i).2]? = some (selMinAux rest cur ci i).1 := by
  intro rest
  induction rest with
  | nil =>
    intro cur ci i O hcur _ _
    exact hcur
  | cons n rest ih =>
    intro cur ci i O hcur hdrop hci
    have hn : O[i]? = some n := by
      have := List.getElem?_drop O i 0
      rw [hdrop] at this
      simpa using this.symm
    have hdrop1 : O.drop (i + 1) = rest := by
      have : O.drop (i + 1) = (O.drop i).drop 1 := by
        rw [List.drop_drop]
      rw [this, hdrop]
      rfl
    rw [selMinAux]
    split_ifs with hcond
    · exact ih n i (i + 1) O hn hdrop1 (Nat.lt_succ_self i)
    · exact ih cur ci (i + 1) O hcur hdrop1 (Nat.lt_succ_of_lt hci)

theorem eraseIdx_decomp {α : Type} :
    ∀ (O : List α) (i : Nat) (a : α), O[i]? = some a →
      ∃ l₁ l₂, O = l₁ ++ a :: l₂ ∧ l₁.length = i ∧ O.eraseIdx i = l₁ ++ l₂ := by
  intro O
  induction O with
  | nil => intro i a h; simp at h
  | cons b O ih =>
    intro i a h
    cases i with
    | zero =>
      simp only [List.getElem?_cons_zero, Option.some.injEq] at h
      subst h
      exact ⟨[], O, rfl, rfl, rfl⟩
    | succ i =>
      simp only [List.getElem?_cons_succ] at h
      obtain ⟨l₁, l₂, heq, hlen, herase⟩ := ih i a h
      refine ⟨b :: l₁, l₂, by rw [heq]; rfl, by simp [hlen], ?_⟩
      rw [List.eraseIdx_cons_succ, herase]
      rfl

theorem find?_some_decomp (q : Node → Bool) (f : Node → Node) :
    ∀ (O : List Node) (ex : Node), O.find? q = some ex →
      ∃ O₁ O₂, O = O₁ ++ ex :: O₂ ∧ (∀ b ∈ O₁, q b = false) ∧
        updateFirst q f O = O₁ ++ f ex :: O₂ := by
  intro O
  induction O with
  | nil => intro ex h; simp at h
  | cons n rest ih =>
    intro ex h
    by_cases hn : q n
    · rw [List.find?_cons_of_pos _ hn] at h
      obtain rfl : n = ex := by injection h
      refine ⟨[], rest, rfl, by simp, ?_⟩
      unfold updateFirst
      rw [if_pos hn]
      rfl
    · rw [List.find?_cons_of_neg _ hn] at h
      obtain ⟨O₁, O₂, heq, hmiss, hupd⟩ := ih ex h
      refine ⟨n :: O₁, O₂, by rw [heq]; rfl, ?_, ?_⟩
      · intro b hb
        rcases List.mem_cons.mp hb with rfl | hb
        · exact Bool.of_not_eq_true hn
        · exact hmiss b hb
      · unfold updateFirst
        rw [if_neg hn, hupd]
        rfl

/-! ### Node well-formedness and the expansion lemmas -/

/-- The (g, crossings) cost recorded in a node. -/
def nodeCost (n : Node) : Nat × Nat := (n.g, n.crossings)

/-- Well-formedness of a frontier node: its stored reversed path is a valid
route from the start to its position, and the numeric fields agree with that
route. -/
def NodeWF (m fz : Grid) (goal start : Pos) (allow : Bool) (n : Node) : Prop :=
  n.path.head? = some n.pos ∧
  OkPath m fz allow start n.pos n.path.reverse ∧
  n.g = n.path.length - 1 ∧
  n.crossings = pathCrossings fz n.path.reverse ∧
  n.h = calculateHeuristic n.pos goal ∧
  n.f = n.g + n.h

/-- The cell entered by move `mv` from the node `cur`. -/
def moveTarget (cur : Node) (mv : Int × Int) : Pos :=
  ⟨cur.pos.x + mv.1, cur.pos.y + mv.2⟩

theorem node_beq_pos (n : Node) (a b : Int) :
    (n.pos.x == a && n.pos.y == b) = true ↔ n.pos = (⟨a, b⟩ : Pos) := by
  rw [Bool.and_eq_true, beq_iff_eq, beq_iff_eq]
  constructor
  · rintro ⟨h1, h2⟩
    have hp : n.pos = ⟨n.pos.x, n.pos.y⟩ := rfl
    rw [hp, h1, h2]
  · rintro h
    rw [h]
    exact ⟨rfl, rfl⟩

theorem moveTarget_isMove (cur : Node) {mv : Int × Int} (h : mv ∈ moves) :
    IsMove cur.pos (moveTarget cur mv) := by
  simp only [IsMove, stepTargets, List.mem_map]
  exact ⟨mv, h, rfl⟩

/-- The five-way case shape of `processMove`. -/
theorem processMove_cases (m fz : Grid) (goal : Pos) (allow : Bool) (closed : List Pos)
    (cur : Node) (O : List Node) (mv : Int × Int) :
    (processMove m fz goal allow closed cur O mv = O ∧
      (isValidMove m fz (moveTarget cur mv).x (moveTarget cur mv).y allow = false ∨
        moveTarget cur mv ∈ closed)) ∨
    (isValidMove m fz (moveTarget cur mv).x (moveTarget cur mv).y allow = true ∧
      moveTarget cur mv ∉ closed ∧
      ((O.find? (fun n => n.pos.x == (moveTarget cur mv).x &&
          n.pos.y == (moveTarget cur mv).y) = none ∧
        processMove m fz goal allow closed cur O mv =
          O ++ [{ pos := moveTarget cur mv, g := cur.g + 1,
                  h := calculateHeuristic (moveTarget cur mv) goal,
                  f := cur.g + 1 + calculateHeuristic (moveTarget cur mv) goal,
                  path := moveTarget cur mv :: cur.path,
                  crossings := cur.crossings + zCost fz (moveTarget cur mv) }]) ∨
       (∃ ex, O.find? (fun n => n.pos.x == (moveTarget cur mv).x &&
          n.pos.y == (moveTarget cur mv).y) = some ex ∧
          ((costLt (cur.g + 1, cur.crossings + zCost fz (moveTarget cur mv))
              (nodeCost ex) ∧
            processMove m fz goal allow closed cur O mv =
              updateFirst (fun n => n.pos.x == (moveTarget cur mv).x &&
                  n.pos.y == (moveTarget cur mv).y)
                (fun n => { pos := n.pos, g := cur.g + 1, h := n.h,
                            f := cur.g + 1 + calculateHeuristic (moveTarget cur mv) goal,
                            path := moveTarget cur mv :: cur.path,
                            crossings := cur.crossings + zCost fz (moveTarget cur mv) })
                O) ∨
           (¬ costLt (cur.g + 1, cur.crossings + zCost fz (moveTarget cur mv))
              (nodeCost ex) ∧
            processMove m fz goal allow closed cur O mv = O))))) := by
  unfold processMove moveTarget
  by_cases hval : isValidMove m fz (cur.pos.x + mv.1) (cur.pos.y + mv.2) allow = true
  · rw [if_pos hval]
    by_cases hcl : (⟨cur.pos.x + mv.1, cur.pos.y + mv.2⟩ : Pos) ∈ closed
    · rw [if_pos hcl]
      exact Or.inl ⟨rfl, Or.inr hcl⟩
    · rw [if_neg hcl]
      rcases hfind : O.find? (fun n => n.pos.x == cur.pos.x + mv.1 &&
          n.pos.y == cur.pos.y + mv.2) with - | ex
      · refine Or.inr ⟨hval, hcl, Or.inl ⟨hfind, ?_⟩⟩
        simp only [hfind]
      · refine Or.inr ⟨hval, hcl, Or.inr ⟨ex, hfind, ?_⟩⟩
        by_cases hupd : cur.g + 1 < ex.g ∨
            (cur.g + 1 = ex.g ∧ cur.crossings + zCost fz ⟨cur.pos.x + mv.1, cur.pos.y + mv.2⟩ <
              ex.crossings)
        · refine Or.inl ⟨hupd, ?_⟩
          simp only [hfind]
          rw [if_pos hupd]
        · refine Or.inr ⟨hupd, ?_⟩
          simp only [hfind]
          rw [if_neg hupd]
  · rw [if_neg hval]
    exact Or.inl ⟨rfl, Or.inl (by simpa using hval)⟩

theorem costLe_of_not_lt {a b : Nat × Nat} (h : ¬ costLt a b) : costLe b a := by
  unfold costLt at h
  unfold costLe
  omega

theorem find?_none_no_pos {O : List Node} {t : Pos}
    (h : O.find? (fun n => n.pos.x == t.x && n.pos.y == t.y) = none) :
    ∀ n ∈ O, n.pos ≠ t := by
  intro n hn hc
  have := List.find?_eq_none.mp h n hn
  apply this
  rw [node_beq_pos]
  rw [hc]

theorem find?_some_pos {O : List Node} {t : Pos} {ex : Node}
    (h : O.find? (fun n => n.pos.x == t.x && n.pos.y == t.y) = some ex) :
    ex ∈ O ∧ ex.pos = t := by
  refine ⟨List.mem_of_find?_eq_some h, ?_⟩
  have := List.find?_some h
  rwa [node_beq_pos] at this

/-- Membership characterization after one move is processed. -/
theorem processMove_mem (m fz : Grid) (goal : Pos) (allow : Bool) (closed : List Pos)
    (cur : Node) (O : List Node) (mv : Int × Int)
    (hh : ∀ n ∈ O, n.h = calculateHeuristic n.pos goal) :
    ∀ n' ∈ processMove m fz goal allow closed cur O mv, n' ∈ O ∨
      (isValidMove m fz (moveTarget cur mv).x (moveTarget cur mv).y allow = true ∧
        moveTarget cur mv ∉ closed ∧ n'.pos = moveTarget cur mv ∧
        n'.path = moveTarget cur mv :: cur.path ∧ n'.g = cur.g + 1 ∧
        n'.crossings = cur.crossings + zCost fz (moveTarget cur mv) ∧
        n'.h = calculateHeuristic (moveTarget cur mv) goal ∧
        n'.f = cur.g + 1 + calculateHeuristic (moveTarget cur mv) goal) := by
  intro n' hn'
  rcases processMove_cases m fz goal allow closed cur O mv with ⟨heq, -⟩ |
    ⟨hval, hcl, ⟨hfind, heq⟩ | ⟨ex, hfind, ⟨hlt, heq⟩ | ⟨hlt, heq⟩⟩⟩
  · rw [heq] at hn'
    exact Or.inl hn'
  · rw [heq] at hn'
    rcases List.mem_append.mp hn' with h | h
    · exact Or.inl h
    · rw [List.mem_singleton] at h
      subst h
      exact Or.inr ⟨hval, hcl, rfl, rfl, rfl, rfl, rfl, rfl⟩
  · obtain ⟨O₁, O₂, hO, -, hupd⟩ := find?_some_decomp _ _ O ex hfind
    rw [heq, hupd] at hn'
    obtain ⟨hexmem, hexpos⟩ := find?_some_pos hfind
    rcases List.mem_append.mp hn' with h | h
    · exact Or.inl (by rw [hO]; exact List.mem_append.mpr (Or.inl h))
    · rcases List.mem_cons.mp h with rfl | h
      · refine Or.inr ⟨hval, hcl, hexpos, rfl, rfl, rfl, ?_, rfl⟩
        show ex.h = _
        rw [hh ex hexmem, hexpos]
      · exact Or.inl (by rw [hO]; exact List.mem_append.mpr (Or.inr (List.mem_cons_of_mem _ h)))
  · rw [heq] at hn'
    exact Or.inl hn'

/-- The heuristic field always records the Manhattan distance to the goal. -/
theorem processMove_h (m fz : Grid) (goal : Pos) (allow : Bool) (closed : List Pos)
    (cur : Node) (O : List Node) (mv : Int × Int)
    (hh : ∀ n ∈ O, n.h = calculateHeuristic n.pos goal) :
    ∀ n' ∈ processMove m fz goal allow closed cur O mv,
      n'.h = calculateHeuristic n'.pos goal := by
  intro n' hn'
  rcases processMove_mem m fz goal allow closed cur O mv hh n' hn' with h | h
  · exact hh n' h
  · rw [h.2.2.2.2.2.2.1, h.2.2.1]

/-- The position multiset after one move: unchanged, or one fresh target
appended. -/
theorem processMove_pos (m fz : Grid) (goal : Pos) (allow : Bool) (closed : List Pos)
    (cur : Node) (O : List Node) (mv : Int × Int) :
    (processMove m fz goal allow closed cur O mv).map Node.pos = O.map Node.pos ∨
      ((∀ n ∈ O, n.pos ≠ moveTarget cur mv) ∧
        (processMove m fz goal allow closed cur O mv).map Node.pos =
          O.map Node.pos ++ [moveTarget cur mv]) := by
  rcases processMove_cases m fz goal allow closed cur O mv with ⟨heq, -⟩ |
    ⟨hval, hcl, ⟨hfind, heq⟩ | ⟨ex, hfind, ⟨hlt, heq⟩ | ⟨hlt, heq⟩⟩⟩
  · rw [heq]
    exact Or.inl rfl
  · rw [heq, List.map_append]
    exact Or.inr ⟨find?_none_no_pos hfind, rfl⟩
  · obtain ⟨O₁, O₂, hO, -, hupd⟩ := find?_some_decomp _ _ O ex hfind
    rw [heq, hupd, hO]
    exact Or.inl (by simp)
  · rw [heq]
    exact Or.inl rfl

theorem processMove_nodup (m fz : Grid) (goal : Pos) (allow : Bool) (closed : List Pos)
    (cur : Node) (O : List Node) (mv : Int × Int)
    (hnd : (O.map Node.pos).Nodup) :
    ((processMove m fz goal allow closed cur O mv).map Node.pos).Nodup := by
  rcases processMove_pos m fz goal allow closed cur O mv with h | ⟨hfresh, h⟩
  · rwa [h]
  · rw [h]
    rw [List.nodup_append]
    refine ⟨hnd, List.nodup_singleton _, ?_⟩
    intro a ha hb
    rw [List.mem_singleton] at hb
    subst hb
    obtain ⟨n, hn, hnp⟩ := List.mem_map.mp ha
    exact hfresh n hn hnp

/-- Every frontier node survives a move processing at the same position with
a cost that never increases. -/
theorem processMove_survive (m fz : Grid) (goal : Pos) (allow : Bool) (closed : List Pos)
    (cur : Node) (O : List Node) (mv : Int × Int) :
    ∀ n ∈ O, ∃ n' ∈ processMove m fz goal allow closed cur O mv,
      n'.pos = n.pos ∧ costLe (nodeCost n') (nodeCost n) := by
  intro n hn
  rcases processMove_cases m fz goal allow closed cur O mv with ⟨heq, -⟩ |
    ⟨hval, hcl, ⟨hfind, heq⟩ | ⟨ex, hfind, ⟨hlt, heq⟩ | ⟨hlt, heq⟩⟩⟩
  · rw [heq]
    exact ⟨n, hn, rfl, costLe_refl _⟩
  · rw [heq]
    exact ⟨n, List.mem_append.mpr (Or.inl hn), rfl, costLe_refl _⟩
  · obtain ⟨O₁, O₂, hO, -, hupd⟩ := find?_some_decomp _ _ O ex hfind
    rw [heq, hupd]
    rw [hO] at hn
    rcases List.mem_append.mp hn with h | h
    · exact ⟨n, List.mem_append.mpr (Or.inl h), rfl, costLe_refl _⟩
    · rcases List.mem_cons.mp h with rfl | h
      · refine ⟨_, List.mem_append.mpr (Or.inr (List.mem_cons_self ..)), rfl, ?_⟩
        exact costLe_of_lt hlt
      · exact ⟨n, List.mem_append.mpr (Or.inr (List.mem_cons_of_mem _ h)), rfl, costLe_refl _⟩
  · rw [heq]
    exact ⟨n, hn, rfl, costLe_refl _⟩

/-- After processing a valid, unclosed move there is a frontier node at its
target whose cost is at most the candidate cost through `cur`. -/
theorem processMove_cand (m fz : Grid) (goal : Pos) (allow : Bool) (closed : List Pos)
    (cur : Node) (O : List Node) (mv : Int × Int)
    (hval : isValidMove m fz (moveTarget cur mv).x (moveTarget cur mv).y allow = true)
    (hcl : moveTarget cur mv ∉ closed) :
    ∃ n' ∈ processMove m fz goal allow closed cur O mv,
      n'.pos = moveTarget cur mv ∧
      costLe (nodeCost n') (cur.g + 1, cur.crossings + zCost fz (moveTarget cur mv)) := by
  rcases processMove_cases m fz goal allow closed cur O mv with ⟨heq, hbad⟩ |
    ⟨-, -, ⟨hfind, heq⟩ | ⟨ex, hfind, ⟨hlt, heq⟩ | ⟨hlt, heq⟩⟩⟩
  · rcases hbad with hbad | hbad
    · rw [hval] at hbad
      cases hbad
    · exact absurd hbad hcl
  · rw [heq]
    exact ⟨_, List.mem_append.mpr (Or.inr (List.mem_cons_self ..)), rfl, costLe_refl _⟩
  · obtain ⟨O₁, O₂, hO, -, hupd⟩ := find?_some_decomp _ _ O ex hfind
    obtain ⟨hexmem, hexpos⟩ := find?_some_pos hfind
    rw [heq, hupd]
    exact ⟨_, List.mem_append.mpr (Or.inr (List.mem_cons_self ..)), hexpos, costLe_refl _⟩
  · obtain ⟨hexmem, hexpos⟩ := find?_some_pos hfind
    rw [heq]
    exact ⟨ex, hexmem, hexpos, costLe_of_not_lt hlt⟩

theorem foldMoves_h (m fz : Grid) (goal : Pos) (allow : Bool) (closed : List Pos)
    (cur : Node) :
    ∀ (ds : List (Int × Int)) (O : List Node),
      (∀ n ∈ O, n.h = calculateHeuristic n.pos goal) →
      ∀ n' ∈ ds.foldl (processMove m fz goal allow closed cur) O,
        n'.h = calculateHeuristic n'.pos goal := by
  intro ds
  induction ds with
  | nil => intro O hh n' hn'; exact hh n' hn'
  | cons mv ds ih =>
    intro O hh n' hn'
    exact ih _ (processMove_h m fz goal allow closed cur O mv hh) n' hn'

theorem foldMoves_nodup (m fz : Grid) (goal : Pos) (allow : Bool) (closed : List Pos)
    (cur : Node) :
    ∀ (ds : List (Int × Int)) (O : List Node), (O.map Node.pos).Nodup →
      ((ds.foldl (processMove m fz goal allow closed cur) O).map Node.pos).Nodup := by
  intro ds
  induction ds with
  | nil => intro O hnd; exact hnd
  | cons mv ds ih =>
    intro O hnd
    exact ih _ (processMove_nodup m fz goal allow closed cur O mv hnd)

theorem foldMoves_mem (m fz : Grid) (goal : Pos) (allow : Bool) (closed : List Pos)
    (cur : Node) :
    ∀ (ds : List (Int × Int)) (O : List Node),
      (∀ n ∈ O, n.h = calculateHeuristic n.pos goal) →
      ∀ n' ∈ ds.foldl (processMove m fz goal allow closed cur) O, n' ∈ O ∨
        ∃ mv ∈ ds,
          isValidMove m fz (moveTarget cur mv).x (moveTarget cur mv).y allow = true ∧
          moveTarget cur mv ∉ closed ∧ n'.pos = moveTarget cur mv ∧
          n'.path = moveTarget cur mv :: cur.path ∧ n'.g = cur.g + 1 ∧
          n'.crossings = cur.crossings + zCost fz (moveTarget cur mv) ∧
          n'.h = calculateHeuristic (moveTarget cur mv) goal ∧
          n'.f = cur.g + 1 + calculateHeuristic (moveTarget cur mv) goal := by
  intro ds
  induction ds with
  | nil => intro O _ n' hn'; exact Or.inl hn'
  | cons mv ds ih =>
    intro O hh n' hn'
    rcases ih _ (processMove_h m fz goal allow closed cur O mv hh) n' hn' with h | ⟨mv', hmv', hrest⟩
    · rcases processMove_mem m fz goal allow closed cur O mv hh n' h with h2 | h2
      · exact Or.inl h2
      · exact Or.inr ⟨mv, List.mem_cons_self .., h2⟩
    · exact Or.inr ⟨mv', List.mem_cons_of_mem _ hmv', hrest⟩

theorem foldMoves_survive (m fz : Grid) (goal : Pos) (allow : Bool) (closed : List Pos)
    (cur : Node) :
    ∀ (ds : List (Int × Int)) (O : List Node),
      ∀ n ∈ O, ∃ n' ∈ ds.foldl (processMove m fz goal allow closed cur) O,
        n'.pos = n.pos ∧ costLe (nodeCost n') (nodeCost n) := by
  intro ds
  induction ds with
  | nil => intro O n hn; exact ⟨n, hn, rfl, costLe_refl _⟩
  | cons mv ds ih =>
    intro O n hn
    obtain ⟨n₁, hn₁, hpos₁, hle₁⟩ := processMove_survive m fz goal allow closed cur O mv n hn
    obtain ⟨n', hn', hpos', hle'⟩ := ih _ n₁ hn₁
    exact ⟨n', hn', hpos'.trans hpos₁, costLe_trans hle' hle₁⟩

theorem foldMoves_cand (m fz : Grid) (goal : Pos) (allow : Bool) (closed : List Pos)
    (cur : Node) :
    ∀ (ds : List (Int × Int)) (O : List Node), ∀ mv ∈ ds,
      isValidMove m fz (moveTarget cur mv).x (moveTarget cur mv).y allow = true →
      moveTarget cur mv ∉ closed →
      ∃ n' ∈ ds.foldl (processMove m fz goal allow closed cur) O,
        n'.pos = moveTarget cur mv ∧
        costLe (nodeCost n') (cur.g + 1, cur.crossings + zCost fz (moveTarget cur mv)) := by
  intro ds
  induction ds with
  | nil => intro O mv hmv; simp at hmv
  | cons mv0 ds ih =>
    intro O mv hmv hval hcl
    rcases List.mem_cons.mp hmv with rfl | hmv'
    · obtain ⟨n₁, hn₁, hpos₁, hle₁⟩ :=
        processMove_cand m fz goal allow closed cur O mv hval hcl
      obtain ⟨n', hn', hpos', hle'⟩ := foldMoves_survive m fz goal allow closed cur ds _ n₁ hn₁
      exact ⟨n', hn', hpos'.trans hpos₁, costLe_trans hle' hle₁⟩
    · exact ih _ mv hmv' hval hcl

/-! ### The search loop invariant -/

/-- Invariants of the `findPath` loop relating the frontier `O`, the closed
set `C`, the endpoints and the traversal policy.  `covers` is the A*
frontier property: every valid route out of the closed set is intercepted by
a frontier node whose recorded cost is at most the cost of the route prefix
reaching it.  `closedNbr` records that the finalized neighbors of every
closed cell left a frontier entry no worse than any route through that
cell. -/
structure SearchInv (m fz : Grid) (goal start : Pos) (allow : Bool)
    (O : List Node) (C : List Pos) : Prop where
  nodupPos : (O.map Node.pos).Nodup
  notClosed : ∀ n ∈ O, n.pos ∉ C
  wf : ∀ n ∈ O, NodeWF m fz goal start allow n
  openOk : ∀ n ∈ O, n.pos = start ∨ isValidMove m fz n.pos.x n.pos.y allow = true
  closedOk : ∀ c ∈ C, c = start ∨ isValidMove m fz c.x c.y allow = true
  nodupC : C.Nodup
  covers : ∀ z l, OkPath m fz allow start z l → z ∉ C →
    ∃ n ∈ O, ∃ l₁ l₂, l = l₁ ++ n.pos :: l₂ ∧ (∀ p ∈ l₁, p ∈ C) ∧
      costLe (nodeCost n) (pathCost fz (l₁ ++ [n.pos]))
  closedNbr : ∀ c ∈ C, ∀ w, IsMove c w →
    isValidMove m fz w.x w.y allow = true → w ∉ C →
    ∃ n ∈ O, n.pos = w ∧ ∀ l, OkPath m fz allow start c l →
      costLe (nodeCost n) (l.length - 1 + 1, pathCrossings fz l + zCost fz w)
  goalOpen : goal ∉ C

/-- Split a list at its first element escaping a set. -/
theorem first_escape (C : List Pos) :
    ∀ (l : List Pos), (∃ q ∈ l, q ∉ C) →
      ∃ m₂ w m₃, l = m₂ ++ w :: m₃ ∧ (∀ p ∈ m₂, p ∈ C) ∧ w ∉ C := by
  intro l
  induction l with
  | nil => rintro ⟨q, hq, -⟩; simp at hq
  | cons a l ih =>
    rintro ⟨q, hq, hqn⟩
    by_cases ha : a ∈ C
    · have hex : ∃ q ∈ l, q ∉ C := by
        rcases List.mem_cons.mp hq with rfl | hmem
        · exact absurd ha hqn
        · exact ⟨q, hmem, hqn⟩
      obtain ⟨m₂, w, m₃, heq, hm, hw⟩ := ih hex
      refine ⟨a :: m₂, w, m₃, by rw [heq]; rfl, ?_, hw⟩
      intro p hp
      rcases List.mem_cons.mp hp with rfl | hp
      · exact ha
      · exact hm p hp
    · exact ⟨[], a, l, rfl, by simp, ha⟩

/-- The popped node has minimal (selection-order) priority over the open
list. -/
theorem selMin_le (hd : Node) (tl : List Node) :
    (selMinAux tl hd 0 1).1 ∈ hd :: tl ∧
      ∀ nd ∈ hd :: tl, selLe (selMinAux tl hd 0 1).1 nd := by
  obtain ⟨hmem, hle, hall⟩ := selMinAux_min tl hd 0 1
  constructor
  · rcases hmem with h | h
    · rw [h]; exact List.mem_cons_self ..
    · exact List.mem_cons_of_mem _ h
  · intro nd hnd
    rcases List.mem_cons.mp hnd with rfl | h
    · exact hle
    · exact hall nd h

/-- Optimality of the popped node: with the invariants in force, the node
selected for expansion carries a cost that is at most the cost of every
valid route to its position.  This is the heart of the A* argument, using
consistency of the Manhattan heuristic and the lexicographic tie-break. -/
theorem popped_opt {m fz : Grid} {goal start : Pos} {allow : Bool}
    {hd : Node} {tl : List Node} {C : List Pos}
    (inv : SearchInv m fz goal start allow (hd :: tl) C) :
    ∀ l, OkPath m fz allow start (selMinAux tl hd 0 1).1.pos l →
      costLe (nodeCost (selMinAux tl hd 0 1).1) (pathCost fz l) := by
  set u := (selMinAux tl hd 0 1).1 with hu
  obtain ⟨humem, hall⟩ := selMin_le hd tl
  intro l hl
  by_contra hcon
  have hlt : costLt (pathCost fz l) (nodeCost u) := costLt_of_not_le hcon
  obtain ⟨n, hnmem, l₁, l₂, hdec, hpre, hnle⟩ :=
    inv.covers u.pos l hl (inv.notClosed u humem)
  have hWFu := inv.wf u humem
  have hWFn := inv.wf n hnmem
  have hselun := hall n hnmem
  -- heuristic consistency along the suffix of the route
  obtain ⟨hchain2, hlast2⟩ := okPath_suffix_facts
    (show OkPath m fz allow start u.pos (l₁ ++ n.pos :: l₂) by rw [← hdec]; exact hl)
  have hheu : calculateHeuristic n.pos goal ≤ l₂.length + calculateHeuristic u.pos goal :=
    chain_heu goal l₂ n.pos u.pos hchain2 hlast2
  -- numeric decomposition of the route cost
  have hlen : l.length = l₁.length + 1 + l₂.length := by
    rw [hdec]; simp; omega
  have hcr : pathCrossings fz l =
      pathCrossings fz (l₁ ++ [n.pos]) + (l₂.map (zCost fz)).sum := by
    rw [hdec]; exact pathCrossings_append_cons fz l₁ n.pos l₂
  have hlen1 : (l₁ ++ [n.pos]).length - 1 = l₁.length := by simp
  -- extract all numeric facts and close with arithmetic
  have e1 := hnle
  simp only [costLe, nodeCost, pathCost] at e1
  rw [hlen1] at e1
  have e2 := hlt
  simp only [costLt, nodeCost, pathCost] at e2
  have e3 := hselun
  rw [← hu] at e3
  simp only [selLe] at e3
  have e4 : u.f = u.g + calculateHeuristic u.pos goal := by
    rw [hWFu.2.2.2.2.2, hWFu.2.2.2.2.1]
  have e5 : n.f = n.g + calculateHeuristic n.pos goal := by
    rw [hWFn.2.2.2.2.2, hWFn.2.2.2.2.1]
  omega

/-- A node freshly pushed (or rewritten) during the expansion of a
well-formed node is itself well-formed. -/
theorem newNode_wf {m fz : Grid} {goal start : Pos} {allow : Bool} {u : Node}
    (huh : u.path.head? = some u.pos)
    (huok : OkPath m fz allow start u.pos u.path.reverse)
    (hug : u.g = u.path.length - 1)
    (hucr : u.crossings = pathCrossings fz u.path.reverse) {n' : Node} {t : Pos}
    (hval : isValidMove m fz t.x t.y allow = true) (hmv : IsMove u.pos t)
    (hpos : n'.pos = t) (hpath : n'.path = t :: u.path) (hg : n'.g = u.g + 1)
    (hcr : n'.crossings = u.crossings + zCost fz t)
    (hhh : n'.h = calculateHeuristic t goal)
    (hf : n'.f = u.g + 1 + calculateHeuristic t goal) :
    NodeWF m fz goal start allow n' := by
  have hpne : u.path ≠ [] := by
    intro hc
    rw [hc] at huh
    simp at huh
  have hrevne : u.path.reverse ≠ [] := by simpa using hpne
  have hrevlast : u.path.reverse.getLast? = some u.pos := by
    rw [List.getLast?_reverse, huh]
  refine ⟨?_, ?_, ?_, ?_, ?_, ?_⟩
  · rw [hpath, hpos]
    rfl
  · rw [hpath, hpos, List.reverse_cons]
    refine ⟨?_, List.getLast?_concat _, ?_, ?_⟩
    · rw [List.head?_append, huok.1]
      rfl
    · refine List.chain'_append.mpr ⟨huok.2.2.1, List.chain'_singleton _, ?_⟩
      intro x hx y hy
      simp only [hrevlast, Option.mem_def, Option.some.injEq] at hx
      simp only [List.head?_cons, Option.mem_def, Option.some.injEq] at hy
      rw [← hx, ← hy]
      exact hmv
    · intro q hq
      rw [List.tail_append_of_ne_nil hrevne] at hq
      rcases List.mem_append.mp hq with h | h
      · exact huok.2.2.2 q h
      · rw [List.mem_singleton] at h
        subst h
        exact hval
  · rw [hg, hpath, hug]
    have := List.length_pos.mpr hpne
    simp only [List.length_cons]
    omega
  · rw [hcr, hpath, List.reverse_cons, pathCrossings_concat fz _ t hrevne, hucr]
  · rw [hhh, hpos]
  · rw [hf, hg, hhh]

/-- One full iteration of the loop body preserves the invariants: pop the
selected node, close its position, expand its neighbors. -/
theorem inv_step {m fz : Grid} {goal start : Pos} {allow : Bool}
    {hd : Node} {tl : List Node} {C : List Pos}
    (inv : SearchInv m fz goal start allow (hd :: tl) C)
    (hne : (selMinAux tl hd 0 1).1.pos ≠ goal) :
    SearchInv m fz goal start allow
      (expand m fz goal allow ((selMinAux tl hd 0 1).1.pos :: C) (selMinAux tl hd 0 1).1
        ((hd :: tl).eraseIdx (selMinAux tl hd 0 1).2))
      ((selMinAux tl hd 0 1).1.pos :: C) := by
  have popt := popped_opt inv
  set u := (selMinAux tl hd 0 1).1 with hu
  set idx := (selMinAux tl hd 0 1).2 with hidx
  have humem : u ∈ hd :: tl := (selMin_le hd tl).1
  have hget : (hd :: tl)[idx]? = some u := by
    rw [hu, hidx]
    exact selMinAux_get tl hd 0 1 (hd :: tl) (by simp) (by simp) Nat.zero_lt_one
  obtain ⟨L₁, L₂, hOdec, -, hErase⟩ := eraseIdx_decomp (hd :: tl) idx u hget
  rw [hErase]
  set C' : List Pos := u.pos :: C with hC'
  have hupos_notC : u.pos ∉ C := inv.notClosed u humem
  have hposdec : (hd :: tl).map Node.pos =
      L₁.map Node.pos ++ u.pos :: L₂.map Node.pos := by
    rw [hOdec]
    simp
  have hnodup0 := inv.nodupPos
  rw [hposdec] at hnodup0
  obtain ⟨hndL₁, hndcons, hdisj⟩ := List.nodup_append.mp hnodup0
  have huposL₂ : u.pos ∉ L₂.map Node.pos := (List.nodup_cons.mp hndcons).1
  have huposL₁ : u.pos ∉ L₁.map Node.pos := by
    intro hc
    exact hdisj hc (List.mem_cons_self ..)
  have hO'nodup : ((L₁ ++ L₂).map Node.pos).Nodup := by
    rw [List.map_append, List.nodup_append]
    refine ⟨hndL₁, (List.nodup_cons.mp hndcons).2, ?_⟩
    intro a ha hb
    exact hdisj ha (List.mem_cons_of_mem _ hb)
  have hO'ne_u : ∀ n ∈ L₁ ++ L₂, n.pos ≠ u.pos := by
    intro n hn hc
    rcases List.mem_append.mp hn with h | h
    · exact huposL₁ (hc ▸ List.mem_map_of_mem Node.pos h)
    · exact huposL₂ (hc ▸ List.mem_map_of_mem Node.pos h)
  have hO'sub : ∀ n ∈ L₁ ++ L₂, n ∈ hd :: tl := by
    intro n hn
    rw [hOdec]
    rcases List.mem_append.mp hn with h | h
    · exact List.mem_append.mpr (Or.inl h)
    · exact List.mem_append.mpr (Or.inr (List.mem_cons_of_mem _ h))
  have hOmem_O' : ∀ n ∈ hd :: tl, n.pos ≠ u.pos → n ∈ L₁ ++ L₂ := by
    intro n hn hne'
    rw [hOdec] at hn
    rcases List.mem_append.mp hn with h | h
    · exact List.mem_append.mpr (Or.inl h)
    · rcases List.mem_cons.mp h with rfl | h
      · exact absurd rfl hne'
      · exact List.mem_append.mpr (Or.inr h)
  have hhO' : ∀ n ∈ L₁ ++ L₂, n.h = calculateHeuristic n.pos goal := by
    intro n hn
    exact (inv.wf n (hO'sub n hn)).2.2.2.2.1
  have hWFu := inv.wf u humem
  unfold expand
  constructor
  case nodupPos =>
    exact foldMoves_nodup m fz goal allow C' u moves _ hO'nodup
  case notClosed =>
    intro n' hn'
    rcases foldMoves_mem m fz goal allow C' u moves _ hhO' n' hn' with h |
      ⟨mv, -, -, hncl, hpos, -⟩
    · intro hc
      rcases List.mem_cons.mp hc with hc | hc
      · exact hO'ne_u n' h hc
      · exact inv.notClosed n' (hO'sub n' h) hc
    · rw [hpos]
      exact hncl
  case wf =>
    intro n' hn'
    rcases foldMoves_mem m fz goal allow C' u moves _ hhO' n' hn' with h |
      ⟨mv, hmv, hval, -, hpos, hpath, hg, hcr, hhh, hf⟩
    · exact inv.wf n' (hO'sub n' h)
    · exact newNode_wf hWFu.1 hWFu.2.1 hWFu.2.2.1 hWFu.2.2.2.1 hval
        (moveTarget_isMove u hmv) hpos hpath hg hcr hhh hf
  case openOk =>
    intro n' hn'
    rcases foldMoves_mem m fz goal allow C' u moves _ hhO' n' hn' with h |
      ⟨mv, -, hval, -, hpos, -⟩
    · exact inv.openOk n' (hO'sub n' h)
    · rw [hpos]
      exact Or.inr hval
  case closedOk =>
    intro c hc
    rcases List.mem_cons.mp hc with rfl | hc
    · exact inv.openOk u humem
    · exact inv.closedOk c hc
  case nodupC =>
    exact List.nodup_cons.mpr ⟨hupos_notC, inv.nodupC⟩
  case covers =>
    intro z l hokl hzC'
    have hzC : z ∉ C := fun h => hzC' (List.mem_cons_of_mem _ h)
    obtain ⟨n, hnmem, l₁, l₂, hdec, hpre, hnle⟩ := inv.covers z l hokl hzC
    by_cases hnu : n.pos = u.pos
    · have hnu' : n = u := List.inj_on_of_nodup_map inv.nodupPos hnmem humem (by rw [hnu])
      subst hnu'
      have hl₂ne : l₂ ≠ [] := by
        intro hc
        subst hc
        have hlast := hokl.2.1
        rw [hdec, List.getLast?_concat] at hlast
        injection hlast with hlast
        exact hzC' (by rw [← hlast]; exact List.mem_cons_self ..)
      have hzl₂ : z ∈ l₂ := by
        have hlast := hokl.2.1
        rw [hdec, List.getLast?_append_of_ne_nil _ (by simp),
          show u.pos :: l₂ = [u.pos] ++ l₂ from rfl,
          List.getLast?_append_of_ne_nil _ hl₂ne] at hlast
        exact List.mem_of_mem_getLast? hlast
      obtain ⟨m₂, w, m₃, hl₂dec, hm₂, hwC'⟩ := first_escape C' l₂ ⟨z, hzl₂, hzC'⟩
      have hldec2 : l = (l₁ ++ u.pos :: m₂) ++ w :: m₃ := by
        rw [hdec, hl₂dec]
        simp
      set M : List Pos := l₁ ++ u.pos :: m₂ with hM
      have hMne : M ≠ [] := by simp [hM]
      have hMC' : ∀ p ∈ M, p ∈ C' := by
        intro p hp
        rw [hM] at hp
        rcases List.mem_append.mp hp with h | h
        · exact List.mem_cons_of_mem _ (hpre p h)
        · rcases List.mem_cons.mp h with rfl | h
          · exact List.mem_cons_self ..
          · exact hm₂ p h
      have hwne_u : w ≠ u.pos := fun h => hwC' (by rw [h]; exact List.mem_cons_self ..)
      have hwnC : w ∉ C := fun h => hwC' (List.mem_cons_of_mem _ h)
      have hMlast : M.getLast? = some (M.getLast hMne) := List.getLast?_eq_getLast ..
      set v : Pos := M.getLast hMne with hv
      have hchainl := hokl.2.2.1
      rw [hldec2] at hchainl
      have hmv_vw : IsMove v w := by
        refine (List.chain'_append.mp hchainl).2.2 v ?_ w ?_
        · rw [hMlast]; rfl
        · rfl
      have hvalw : isValidMove m fz w.x w.y allow = true := by
        refine hokl.2.2.2 w ?_
        rw [hldec2, List.tail_append_of_ne_nil hMne]
        exact List.mem_append.mpr (Or.inr (List.mem_cons_self ..))
      have hokM : OkPath m fz allow start v M := by
        have hMdrop : M.dropLast ++ [v] = M := List.dropLast_append_getLast hMne
        have hldec3 : l = M.dropLast ++ v :: (w :: m₃) := by
          rw [hldec2, ← hMdrop]
          simp
        have := okPath_prefix (show OkPath m fz allow start z (M.dropLast ++ v :: (w :: m₃))
          by rw [← hldec3]; exact hokl)
        rwa [hMdrop] at this
      have hMlen : 1 ≤ M.length := by
        have := List.length_pos.mpr hMne
        omega
      have cEdge : (M ++ [w]).length - 1 = (M.length - 1) + 1 := by
        simp
        omega
      have cCross : pathCrossings fz (M ++ [w]) = pathCrossings fz M + zCost fz w :=
        pathCrossings_concat fz M w hMne
      by_cases hvu : v = u.pos
      · have hokMu : OkPath m fz allow start u.pos M := by rw [← hvu]; exact hokM
        have hub : costLe (nodeCost u) (pathCost fz M) := popt M hokMu
        obtain ⟨mv, hmv, htgt⟩ := exists_move_of_isMove (show IsMove u.pos w by
          rw [← hvu]; exact hmv_vw)
        have htgt' : w = moveTarget u mv := htgt
        obtain ⟨n', hn', hpos', hle'⟩ := foldMoves_cand m fz goal allow C' u moves
          (L₁ ++ L₂) mv hmv (by rw [← htgt']; exact hvalw) (by rw [← htgt']; exact hwC')
        refine ⟨n', hn', M, m₃, ?_, hMC', ?_⟩
        · rw [hldec2, hpos', ← htgt']
        · rw [hpos', ← htgt']
          have hstep := costLe_step (zCost fz w) hub
          simp only [nodeCost, pathCost] at hstep ⊢
          rw [cEdge, cCross]
          refine costLe_trans ?_ hstep
          rw [← htgt'] at hle'
          exact hle'
      · have hvC : v ∈ C := by
          have hvM : v ∈ M := List.getLast_mem hMne
          rcases List.mem_cons.mp (hMC' v hvM) with h | h
          · exact absurd h hvu
          · exact h
        obtain ⟨n₃, hn₃, hpos₃, hb₃⟩ := inv.closedNbr v hvC w hmv_vw hvalw hwnC
        have hne₃ : n₃.pos ≠ u.pos := by rw [hpos₃]; exact hwne_u
        obtain ⟨n', hn', hpos', hle'⟩ := foldMoves_survive m fz goal allow C' u moves
          (L₁ ++ L₂) n₃ (hOmem_O' n₃ hn₃ hne₃)
        refine ⟨n', hn', M, m₃, ?_, hMC', ?_⟩
        · rw [hldec2, hpos', hpos₃]
        · rw [hpos', hpos₃]
          have hbM := hb₃ M hokM
          simp only [pathCost]
          rw [cEdge, cCross]
          exact costLe_trans hle' hbM
    · have hnO' : n ∈ L₁ ++ L₂ := hOmem_O' n hnmem hnu
      obtain ⟨n', hn', hpos', hle'⟩ := foldMoves_survive m fz goal allow C' u moves
        (L₁ ++ L₂) n hnO'
      refine ⟨n', hn', l₁, l₂, ?_, fun p hp => List.mem_cons_of_mem _ (hpre p hp), ?_⟩
      · rw [hdec, hpos']
      · rw [hpos']
        exact costLe_trans hle' hnle
  case closedNbr =>
    intro c hc w hmvw hvalw hwC'
    have hwnotC : w ∉ C := fun h => hwC' (List.mem_cons_of_mem _ h)
    have hwne_u : w ≠ u.pos := fun h => hwC' (by rw [h]; exact List.mem_cons_self ..)
    rcases List.mem_cons.mp hc with rfl | hcC
    · obtain ⟨mv, hmv, htgt⟩ := exists_move_of_isMove hmvw
      have htgt' : w = moveTarget u mv := htgt
      obtain ⟨n', hn', hpos', hle'⟩ := foldMoves_cand m fz goal allow C' u moves
        (L₁ ++ L₂) mv hmv (by rw [← htgt']; exact hvalw) (by rw [← htgt']; exact hwC')
      refine ⟨n', hn', by rw [hpos', ← htgt'], fun l hlc => ?_⟩
      have h1 := popt l hlc
      have hstep := costLe_step (zCost fz w) h1
      simp only [nodeCost, pathCost] at hstep
      refine costLe_trans ?_ hstep
      rw [← htgt'] at hle'
      exact hle'
    · obtain ⟨n₃, hn₃, hpos₃, hb₃⟩ := inv.closedNbr c hcC w hmvw hvalw hwnotC
      have hne₃ : n₃.pos ≠ u.pos := by rw [hpos₃]; exact hwne_u
      obtain ⟨n', hn', hpos', hle'⟩ := foldMoves_survive m fz goal allow C' u moves
        (L₁ ++ L₂) n₃ (hOmem_O' n₃ hn₃ hne₃)
      exact ⟨n', hn', hpos'.trans hpos₃, fun l hlc => costLe_trans hle' (hb₃ l hlc)⟩
  case goalOpen =>
    intro hc
    rcases List.mem_cons.mp hc with hc | hc
    · exact hne hc.symm
    · exact inv.goalOpen hc

/-! ### Fuel bound and the loop theorem -/

/-- The finitely many positions that can pass the bounds check. -/
def inBoundsFinset (m : Grid) : Finset Pos :=
  ((Finset.range (width m)) ×ˢ (Finset.range (height m))).image
    (fun p => Pos.mk (p.1 : Int) (p.2 : Int))

theorem card_inBoundsFinset (m : Grid) :
    (inBoundsFinset m).card ≤ width m * height m := by
  refine Finset.card_image_le.trans ?_
  rw [Finset.card_product, Finset.card_range, Finset.card_range]

theorem mem_inBoundsFinset {m fz : Grid} {allow : Bool} {p : Pos}
    (h : isValidMove m fz p.x p.y allow = true) : p ∈ inBoundsFinset m := by
  obtain ⟨h1, h2, h3, h4⟩ := valid_inBounds h
  refine Finset.mem_image.mpr ⟨(p.x.toNat, p.y.toNat), ?_, ?_⟩
  · rw [Finset.mem_product]
    exact ⟨Finset.mem_range.mpr (by omega), Finset.mem_range.mpr (by omega)⟩
  · have hx : (p.x.toNat : Int) = p.x := Int.toNat_of_nonneg h1
    have hy : (p.y.toNat : Int) = p.y := Int.toNat_of_nonneg h3
    show Pos.mk _ _ = p
    rw [hx, hy]

/-- With the invariants in force and a nonempty frontier, the closed set
never exceeds the grid area. -/
theorem closed_card_bound {m fz : Grid} {goal start : Pos} {allow : Bool}
    {O : List Node} {C : List Pos}
    (inv : SearchInv m fz goal start allow O C) (hO : O ≠ []) :
    C.length ≤ width m * height m := by
  obtain ⟨n, hn⟩ := List.exists_mem_of_ne_nil O hO
  have hnpos : n.pos ∈ insert start (inBoundsFinset m) := by
    rcases inv.openOk n hn with h | h
    · rw [h]; exact Finset.mem_insert_self ..
    · exact Finset.mem_insert_of_mem (mem_inBoundsFinset h)
  have hnnotC : n.pos ∉ C.toFinset := by
    rw [List.mem_toFinset]
    exact inv.notClosed n hn
  have hsub : C.toFinset ⊆ (insert start (inBoundsFinset m)).erase n.pos := by
    intro c hc
    rw [Finset.mem_erase]
    refine ⟨?_, ?_⟩
    · intro hcc
      rw [← hcc] at hnnotC
      exact hnnotC hc
    · rw [List.mem_toFinset] at hc
      rcases inv.closedOk c hc with h | h
      · rw [h]; exact Finset.mem_insert_self ..
      · exact Finset.mem_insert_of_mem (mem_inBoundsFinset h)
  have h1 : C.length = C.toFinset.card := (List.toFinset_card_of_nodup inv.nodupC).symm
  have h2 : C.toFinset.card ≤ ((insert start (inBoundsFinset m)).erase n.pos).card :=
    Finset.card_le_card hsub
  have h3 : ((insert start (inBoundsFinset m)).erase n.pos).card =
      (insert start (inBoundsFinset m)).card - 1 := Finset.card_erase_of_mem hnpos
  have h4 : (insert start (inBoundsFinset m)).card ≤ (inBoundsFinset m).card + 1 :=
    Finset.card_insert_le ..
  have h5 := card_inBoundsFinset m
  omega

/-- Full specification of the search loop: with fuel covering the remaining
closable positions it cannot run out; a `noPath` answer means no valid route
reaches the goal; a `found` answer is a valid route of lexicographically
minimal (length, crossings) cost. -/
theorem findPathLoop_spec {m fz : Grid} {goal start : Pos} {allow : Bool} :
    ∀ (fuel : Nat) (O : List Node) (C : List Pos),
      SearchInv m fz goal start allow O C →
      width m * height m + 1 ≤ fuel + C.length →
      (findPathLoop m fz goal allow fuel O C ≠ .outOfFuel) ∧
      (findPathLoop m fz goal allow fuel O C = .noPath →
        ∀ l, ¬ OkPath m fz allow start goal l) ∧
      (∀ p, findPathLoop m fz goal allow fuel O C = .found p →
        OkPath m fz allow start goal p ∧
        ∀ l, OkPath m fz allow start goal l → costLe (pathCost fz p) (pathCost fz l)) := by
  intro fuel
  induction fuel with
  | zero =>
    intro O C inv hfuel
    match O with
    | [] =>
      refine ⟨by simp [findPathLoop], fun _ l hl => ?_, fun p hp => by simp [findPathLoop] at hp⟩
      obtain ⟨n, hn, -⟩ := inv.covers goal l hl inv.goalOpen
      simp at hn
    | hd :: tl =>
      exfalso
      have := closed_card_bound inv (by simp)
      omega
  | succ fuel ih =>
    intro O C inv hfuel
    match O with
    | [] =>
      refine ⟨by simp [findPathLoop], fun _ l hl => ?_, fun p hp => by simp [findPathLoop] at hp⟩
      obtain ⟨n, hn, -⟩ := inv.covers goal l hl inv.goalOpen
      simp at hn
    | hd :: tl =>
      simp only [findPathLoop]
      by_cases hpos : (selMinAux tl hd 0 1).1.pos = goal
      · rw [if_pos hpos]
        refine ⟨by simp, by simp, fun p hp => ?_⟩
        have hpeq : p = (selMinAux tl hd 0 1).1.path.reverse := by
          injection hp.symm
        subst hpeq
        have humem := (selMin_le hd tl).1
        have hWFu := inv.wf _ humem
        have hok : OkPath m fz allow start goal (selMinAux tl hd 0 1).1.path.reverse := by
          rw [← hpos]
          exact hWFu.2.1
        refine ⟨hok, fun l hl => ?_⟩
        have hopt := popped_opt inv l (by rw [hpos]; exact hl)
        have hcost : pathCost fz (selMinAux tl hd 0 1).1.path.reverse =
            nodeCost (selMinAux tl hd 0 1).1 := by
          unfold pathCost nodeCost
          rw [List.length_reverse, hWFu.2.2.1, hWFu.2.2.2.1]
        rw [hcost]
        exact hopt
      · rw [if_neg hpos]
        exact ih _ _ (inv_step inv hpos) (by simp only [List.length_cons]; omega)

/-- The state after the first iteration (which always pops the lone start
node, whose source-faithful `f = 0` never matters because it is alone on
the frontier) satisfies the loop invariants. -/
theorem initial_inv {m fz : Grid} {goal start : Pos} {allow : Bool} (hne : start ≠ goal) :
    SearchInv m fz goal start allow
      (expand m fz goal allow [start]
        { pos := start, g := 0, h := calculateHeuristic start goal, f := 0,
          path := [start], crossings := 0 } [])
      [start] := by
  set sN : Node := ({ pos := start, g := 0, h := calculateHeuristic start goal, f := 0, path := [start], crossings := 0 } : Node) with hsN
  have hh0 : ∀ n ∈ ([] : List Node), n.h = calculateHeuristic n.pos goal := by simp
  have huh : sN.path.head? = some sN.pos := rfl
  have huok : OkPath m fz allow start sN.pos sN.path.reverse := by
    refine ⟨rfl, rfl, List.chain'_singleton _, ?_⟩
    simp [hsN]
  have hug : sN.g = sN.path.length - 1 := rfl
  have hucr : sN.crossings = pathCrossings fz sN.path.reverse := rfl
  have hstartmove : ∀ w : Pos, IsMove start w → ∃ mv ∈ moves, w = moveTarget sN mv := by
    intro w hw
    obtain ⟨mv, hmv, htgt⟩ := exists_move_of_isMove hw
    exact ⟨mv, hmv, htgt⟩
  unfold expand
  constructor
  case nodupPos =>
    exact foldMoves_nodup m fz goal allow [start] sN moves [] (by simp)
  case notClosed =>
    intro n' hn'
    rcases foldMoves_mem m fz goal allow [start] sN moves [] hh0 n' hn' with h |
      ⟨mv, -, -, hncl, hpos, -⟩
    · simp at h
    · rw [hpos]
      exact hncl
  case wf =>
    intro n' hn'
    rcases foldMoves_mem m fz goal allow [start] sN moves [] hh0 n' hn' with h |
      ⟨mv, hmv, hval, -, hpos, hpath, hg, hcr, hhh, hf⟩
    · simp at h
    · exact newNode_wf huh huok hug hucr hval (moveTarget_isMove sN hmv)
        hpos hpath hg hcr hhh hf
  case openOk =>
    intro n' hn'
    rcases foldMoves_mem m fz goal allow [start] sN moves [] hh0 n' hn' with h |
      ⟨mv, -, hval, -, hpos, -⟩
    · simp at h
    · rw [hpos]
      exact Or.inr hval
  case closedOk =>
    intro c hc
    rw [List.mem_singleton] at hc
    exact Or.inl hc
  case nodupC =>
    exact List.nodup_singleton _
  case covers =>
    intro z l hokl hzC'
    have hzs : z ≠ start := by
      intro h
      exact hzC' (by rw [h]; exact List.mem_cons_self ..)
    obtain ⟨rest, hl⟩ : ∃ rest, l = start :: rest := by
      match l, hokl with
      | [], hokl => exact absurd hokl.1 (by simp)
      | a :: rest, hokl =>
        have ha : a = start := by
          have := hokl.1
          simp only [List.head?_cons, Option.some.injEq] at this
          exact this
        exact ⟨rest, by rw [ha]⟩
    subst hl
    have hrestne : rest ≠ [] := by
      intro hc
      subst hc
      have := hokl.2.1
      simp only [List.getLast?_singleton, Option.some.injEq] at this
      exact hzs this.symm
    have hzrest : z ∈ rest := by
      have hlast := hokl.2.1
      rw [show start :: rest = [start] ++ rest from rfl,
        List.getLast?_append_of_ne_nil _ hrestne] at hlast
      exact List.mem_of_mem_getLast? hlast
    obtain ⟨m₂, w, m₃, hrdec, hm₂, hwC'⟩ := first_escape [start] rest
      ⟨z, hzrest, by simpa using hzs⟩
    have hldec : start :: rest = (start :: m₂) ++ w :: m₃ := by
      rw [hrdec]
      rfl
    set M : List Pos := start :: m₂ with hM
    have hMne : M ≠ [] := by simp [hM]
    have hMC : ∀ p ∈ M, p ∈ [start] := by
      intro p hp
      rcases List.mem_cons.mp hp with rfl | hp
      · exact List.mem_singleton.mpr rfl
      · exact hm₂ p hp
    have hMlast : M.getLast? = some (M.getLast hMne) := List.getLast?_eq_getLast ..
    have hvM : M.getLast hMne ∈ M := List.getLast_mem hMne
    have hvs : M.getLast hMne = start := List.mem_singleton.mp (hMC _ hvM)
    have hchainl := hokl.2.2.1
    rw [hldec] at hchainl
    have hmv_vw : IsMove start w := by
      rw [← hvs]
      refine (List.chain'_append.mp hchainl).2.2 (M.getLast hMne) ?_ w ?_
      · rw [hMlast]; rfl
      · rfl
    have hvalw : isValidMove m fz w.x w.y allow = true := by
      refine hokl.2.2.2 w ?_
      show w ∈ rest
      rw [hrdec]
      exact List.mem_append.mpr (Or.inr (List.mem_cons_self ..))
    obtain ⟨mv, hmv, htgt⟩ := hstartmove w hmv_vw
    obtain ⟨n', hn', hpos', hle'⟩ := foldMoves_cand m fz goal allow [start] sN moves []
      mv hmv (by rw [← htgt]; exact hvalw) (by rw [← htgt]; exact hwC')
    have hMlen : 1 ≤ M.length := by
      have := List.length_pos.mpr hMne
      omega
    refine ⟨n', hn', M, m₃, ?_, hMC, ?_⟩
    · rw [hldec, hpos', ← htgt]
    · rw [hpos', ← htgt]
      have cEdge : (M ++ [w]).length - 1 = M.length := by simp
      have cCross : pathCrossings fz (M ++ [w]) = pathCrossings fz M + zCost fz w :=
        pathCrossings_concat fz M w hMne
      have hle2 : costLe (sN.g + 1, sN.crossings + zCost fz w)
          (pathCost fz (M ++ [w])) := by
        simp only [pathCost]
        rw [cEdge, cCross]
        unfold costLe
        simp only [hsN]
        omega
      refine costLe_trans ?_ hle2
      rw [htgt]
      exact hle'
  case closedNbr =>
    intro c hc w hmvw hvalw hwC'
    rw [List.mem_singleton] at hc
    rw [hc] at hmvw
    obtain ⟨mv, hmv, htgt⟩ := hstartmove w hmvw
    obtain ⟨n', hn', hpos', hle'⟩ := foldMoves_cand m fz goal allow [start] sN moves []
      mv hmv (by rw [← htgt]; exact hvalw) (by rw [← htgt]; exact hwC')
    refine ⟨n', hn', by rw [hpos', ← htgt], fun l hlc => ?_⟩
    refine costLe_trans (by rw [← htgt] at hle'; exact hle') ?_
    show costLe (sN.g + 1, sN.crossings + zCost fz w) _
    unfold costLe
    simp only [hsN]
    omega
  case goalOpen =>
    intro hc
    rw [List.mem_singleton] at hc
    exact hne hc.symm

/-- Full specification of `findPath`: the fuel never runs out, a `noPath`
answer is complete (no valid route exists), and a `found` answer is a valid
route from start to goal of lexicographically minimal (length, crossings)
cost. -/
theorem findPath_spec (m fz : Grid) (start goal : Pos) (allow : Bool) :
    (findPath m fz start goal allow ≠ .outOfFuel) ∧
    (findPath m fz start goal allow = .noPath →
      ∀ l, ¬ OkPath m fz allow start goal l) ∧
    (∀ p, findPath m fz start goal allow = .found p →
      OkPath m fz allow start goal p ∧
      ∀ l, OkPath m fz allow start goal l → costLe (pathCost fz p) (pathCost fz l)) := by
  unfold findPath
  simp only [findPathLoop, selMinAux]
  by_cases hse : start = goal
  · rw [if_pos hse]
    refine ⟨by simp, by simp, fun p hp => ?_⟩
    have hpeq : p = [start] := by
      have h2 := hp.symm
      injection h2
    subst hpeq
    have hok : OkPath m fz allow start goal [start] := by
      refine ⟨rfl, ?_, List.chain'_singleton _, by simp⟩
      rw [List.getLast?_singleton, hse]
    refine ⟨hok, fun l hl => ?_⟩
    have h0 : pathCost fz [start] = (0, 0) := rfl
    rw [h0]
    exact costLe_zero _
  · rw [if_neg hse]
    have hspec := findPathLoop_spec (width m * height m)
      (expand m fz goal allow [start]
        { pos := start, g := 0, h := calculateHeuristic start goal, f := 0,
          path := [start], crossings := 0 } [])
      [start] (initial_inv hse) (by simp)
    simpa using hspec

/-- When some valid route exists, the search returns an optimal one. -/
theorem findPath_found_of_path {m fz : Grid} {start goal : Pos} {allow : Bool}
    (h : ∃ l, OkPath m fz allow start goal l) :
    ∃ p, findPath m fz start goal allow = .found p ∧ OkPath m fz allow start goal p ∧
      ∀ l, OkPath m fz allow start goal l → costLe (pathCost fz p) (pathCost fz l) := by
  obtain ⟨hfuel, hnp, hfound⟩ := findPath_spec m fz start goal allow
  cases hres : findPath m fz start goal allow with
  | found p => exact ⟨p, rfl, hfound p hres⟩
  | noPath =>
    obtain ⟨l, hl⟩ := h
    exact absurd hl (hnp hres l)
  | outOfFuel => exact absurd hres hfuel

/-- When no valid route exists, the search returns the definitive `null`. -/
theorem findPath_noPath_of_no_path {m fz : Grid} {start goal : Pos} {allow : Bool}
    (h : ¬ ∃ l, OkPath m fz allow start goal l) :
    findPath m fz start goal allow = .noPath := by
  obtain ⟨hfuel, -, hfound⟩ := findPath_spec m fz start goal allow
  cases hres : findPath m fz start goal allow with
  | found p => exact absurd ⟨p, (hfound p hres).1⟩ h
  | noPath => rfl
  | outOfFuel => exact absurd hres hfuel

theorem okPath_goal_in_tail {m fz : Grid} {allow : Bool} {s z : Pos} {l : List Pos}
    (h : OkPath m fz allow s z l) (hlen : 2 ≤ l.length) : z ∈ l.tail := by
  match l, hlen with
  | a :: b :: rest, _ =>
    have hlast := h.2.1
    rw [show a :: b :: rest = [a] ++ (b :: rest) from rfl,
      List.getLast?_append_of_ne_nil _ (by simp)] at hlast
    exact List.mem_of_mem_getLast? hlast

/-- When the goal cell itself fails the validity check and differs from the
start, the search can only answer `null`. -/
theorem findPath_noPath_of_invalid_goal {m fz : Grid} {start goal : Pos} {allow : Bool}
    (hne : start ≠ goal) (hinv : isValidMove m fz goal.x goal.y allow = false) :
    findPath m fz start goal allow = .noPath := by
  refine findPath_noPath_of_no_path ?_
  rintro ⟨l, hl⟩
  have hlne := okPath_nonempty hl
  rcases Nat.lt_or_ge l.length 2 with hlen | hlen
  · have h1 : l.length = 1 := by
      have := List.length_pos.mpr hlne
      omega
    match l, h1 with
    | [a], _ =>
      have hh := hl.1
      have hg := hl.2.1
      simp only [List.head?_cons, List.getLast?_singleton, Option.some.injEq] at hh hg
      exact hne (by rw [← hh, hg])
  · have := hl.2.2.2 goal (okPath_goal_in_tail hl hlen)
    rw [hinv] at this
    cases this

/-- Passability is monotone in the hazard-crossing flag. -/
theorem isValidMove_mono {m fz : Grid} {x y : Int}
    (h : isValidMove m fz x y false = true) : isValidMove m fz x y true = true := by
  unfold isValidMove at h ⊢
  split_ifs at h with h1 h2 h3
  split_ifs with g1
  · simp at g1
  · rfl

theorem okPath_mono {m fz : Grid} {s t : Pos} {l : List Pos}
    (h : OkPath m fz false s t l) : OkPath m fz true s t l :=
  ⟨h.1, h.2.1, h.2.2.1, fun q hq => isValidMove_mono (h.2.2.2 q hq)⟩

/-! ### The claims -/

/-- Claim C1: for every grid in which at least one hazard-free route exists
between the user and exit positions, `findPath` invoked with hazard crossing
disallowed returns a route, and its length equals the true shortest
4-directional route length (it is itself a hazard-free route and no
hazard-free route is shorter). -/
theorem claim_C1_strict_optimal (m fz : Grid) (user exitPos : Pos)
    (h : ∃ l, OkPath m fz false user exitPos l) :
    ∃ p, findPath m fz user exitPos false = .found p ∧
      OkPath m fz false user exitPos p ∧
      ∀ l, OkPath m fz false user exitPos l → p.length ≤ l.length := by
  obtain ⟨p, hp, hok, hopt⟩ := findPath_found_of_path h
  refine ⟨p, hp, hok, fun l hl => ?_⟩
  have hc := hopt l hl
  simp only [costLe, pathCost] at hc
  have h1 := List.length_pos.mpr (okPath_nonempty hok)
  have h2 := List.length_pos.mpr (okPath_nonempty hl)
  omega

/-- Claim C2: `createFireZoneMap` preserves the grid dimensions and rewrites
exactly the in-bounds cells at Chebyshev distance 1 of some fire cell —
excluding cells that are themselves fire or wall — to the hazard-buffer
code, leaving every other cell (in particular every cell at Chebyshev
distance at least 2 from all fire) unchanged; being a pointwise function of
the input grid alone, the result is independent of processing order. -/
theorem claim_C2_hazard_expansion (m : Grid) (hrect : Rectangular m) :
    (createFireZoneMap m).length = m.length ∧
    (∀ v, ((createFireZoneMap m).getD v []).length = (m.getD v []).length) ∧
    ∀ u v, u < width m → v < height m →
      cellAtN (createFireZoneMap m) u v =
        if cellAtN m u v ≠ 'F' ∧ cellAtN m u v ≠ '0' ∧
            (∃ fx < width m, ∃ fy < height m, cellAtN m fx fy = 'F' ∧
              max ((fx : Int) - u).natAbs ((fy : Int) - v).natAbs = 1)
        then 'Z' else cellAtN m u v := by
  obtain ⟨hdims, hcell⟩ := createFireZoneMap_spec hrect
  refine ⟨hdims.1, hdims.2, fun u v hu hv => ?_⟩
  rw [hcell u v hu hv]
  by_cases hF : cellAtN m u v = 'F'
  · rw [if_neg (fun hc => hc.1 hF), if_neg (fun hc => hc.1 hF)]
  · have hiff : (∃ fx < width m, ∃ fy < height m, cellAtN m fx fy = 'F' ∧
        ((fx : Int) - u).natAbs ≤ 1 ∧ ((fy : Int) - v).natAbs ≤ 1) ↔
        (∃ fx < width m, ∃ fy < height m, cellAtN m fx fy = 'F' ∧
          max ((fx : Int) - u).natAbs ((fy : Int) - v).natAbs = 1) := by
      constructor
      · rintro ⟨fx, hfx, fy, hfy, hf, h1, h2⟩
        refine ⟨fx, hfx, fy, hfy, hf, ?_⟩
        have hmax : max ((fx : Int) - u).natAbs ((fy : Int) - v).natAbs ≤ 1 :=
          max_le h1 h2
        rcases Nat.lt_or_ge (max ((fx : Int) - u).natAbs ((fy : Int) - v).natAbs) 1
          with h0 | h0
        · exfalso
          have hx0 : ((fx : Int) - u).natAbs = 0 := by
            have := le_max_left ((fx : Int) - u).natAbs ((fy : Int) - v).natAbs
            omega
          have hy0 : ((fy : Int) - v).natAbs = 0 := by
            have := le_max_right ((fx : Int) - u).natAbs ((fy : Int) - v).natAbs
            omega
          have hfx' : fx = u := by omega
          have hfy' : fy = v := by omega
          rw [hfx', hfy'] at hf
          exact hF hf
        · omega
      · rintro ⟨fx, hfx, fy, hfy, hf, hmax⟩
        refine ⟨fx, hfx, fy, hfy, hf, ?_, ?_⟩
        · have := le_max_left ((fx : Int) - u).natAbs ((fy : Int) - v).natAbs
          omega
        · have := le_max_right ((fx : Int) - u).natAbs ((fy : Int) - v).natAbs
          omega
    by_cases hc : cellAtN m u v ≠ 'F' ∧ cellAtN m u v ≠ '0' ∧
        (∃ fx < width m, ∃ fy < height m, cellAtN m fx fy = 'F' ∧
          ((fx : Int) - u).natAbs ≤ 1 ∧ ((fy : Int) - v).natAbs ≤ 1)
    · rw [if_pos hc, if_pos ⟨hc.1, hc.2.1, hiff.mp hc.2.2⟩]
    · rw [if_neg hc, if_neg (fun hcc => hc ⟨hcc.1, hcc.2.1, hiff.mpr hcc.2.2⟩)]

/-- Claim C7: whenever a route exists, the returned route has the fewest
hazard-buffer crossings among all routes of the same (minimal) length. -/
theorem claim_C7_tiebreak (m fz : Grid) (s t : Pos) (allow : Bool)
    (h : ∃ l, OkPath m fz allow s t l) :
    ∃ p, findPath m fz s t allow = .found p ∧ OkPath m fz allow s t p ∧
      ∀ l, OkPath m fz allow s t l → l.length = p.length →
        pathCrossings fz p ≤ pathCrossings fz l := by
  obtain ⟨p, hp, hok, hopt⟩ := findPath_found_of_path h
  refine ⟨p, hp, hok, fun l hl hlen => ?_⟩
  have hc := hopt l hl
  simp only [costLe, pathCost] at hc
  omega

/-- Claim C8: on every finite grid and every pair of endpoints, the search
runs to completion within its fuel and returns either a complete route from
start to goal inclusive — unit moves only, all cells after the start
passable — or the explicit no-path value; never a partial route. -/
theorem claim_C8_total (m fz : Grid) (s t : Pos) (allow : Bool) :
    (∃ p, findPath m fz s t allow = .found p ∧ p.head? = some s ∧
      p.getLast? = some t ∧ List.Chain' IsMove p ∧
      ∀ q ∈ p.tail, isValidMove m fz q.x q.y allow = true) ∨
    findPath m fz s t allow = .noPath := by
  obtain ⟨hfuel, -, hfound⟩ := findPath_spec m fz s t allow
  cases hres : findPath m fz s t allow with
  | found p =>
    obtain ⟨hok, -⟩ := hfound p hres
    exact Or.inl ⟨p, rfl, hok.1, hok.2.1, hok.2.2.1, hok.2.2.2⟩
  | noPath => exact Or.inr rfl
  | outOfFuel => exact absurd hres hfuel

/-- Claim C10: when the exit cell lies within Chebyshev distance 1 of a fire
cell and is itself neither wall nor fire, the hazard expansion marks it as a
buffer cell, so the strict phase — run on the expanded grid used as both map
and hazard mask — necessarily reports no path, and the orchestrator result
always carries a non-empty warning (the relaxed phase is always entered). -/
theorem claim_C10_strict_fails (m : Grid) (hrect : Rectangular m) (pu : Pos)
    (ex ey : Nat) (hex : ex < width m) (hey : ey < height m)
    (hne : pu ≠ ⟨ex, ey⟩)
    (hnotF : cellAtN m ex ey ≠ 'F') (hnotW : cellAtN m ex ey ≠ '0')
    (hfire : ∃ fx < width m, ∃ fy < height m, cellAtN m fx fy = 'F' ∧
      max ((fx : Int) - ex).natAbs ((fy : Int) - ey).natAbs = 1) :
    findPath (createFireZoneMap m) (createFireZoneMap m) pu ⟨ex, ey⟩ false = .noPath ∧
    (updateInstructions m pu ⟨ex, ey⟩).warning ≠ "" := by
  obtain ⟨hdims, hcell⟩ := createFireZoneMap_spec hrect
  obtain ⟨fx, hfx, fy, hfy, hf, hmax⟩ := hfire
  have hZ : cellAtN (createFireZoneMap m) ex ey = 'Z' := by
    rw [hcell ex ey hex hey, if_pos]
    refine ⟨hnotF, hnotW, fx, hfx, fy, hfy, hf, ?_, ?_⟩
    · have := le_max_left ((fx : Int) - ex).natAbs ((fy : Int) - ey).natAbs
      omega
    · have := le_max_right ((fx : Int) - ex).natAbs ((fy : Int) - ey).natAbs
      omega
  have hcellI : cellAt (createFireZoneMap m) (ex : Int) (ey : Int) = 'Z' := by
    unfold cellAt
    rw [Int.toNat_natCast, Int.toNat_natCast]
    exact hZ
  have hinv : isValidMove (createFireZoneMap m) (createFireZoneMap m)
      (ex : Int) (ey : Int) false = false := by
    unfold isValidMove
    split_ifs with h1 h2 h3
    · rfl
    · rfl
    · rfl
    · exact absurd ⟨rfl, hcellI⟩ h3
  have hnp : findPath (createFireZoneMap m) (createFireZoneMap m) pu ⟨ex, ey⟩ false =
      .noPath :=
    findPath_noPath_of_invalid_goal hne hinv
  refine ⟨hnp, ?_⟩
  unfold updateInstructions
  simp only [hnp]
  cases hrel : findPath (createFireZoneMap m) (createFireZoneMap m) pu ⟨ex, ey⟩ true <;>
    simp

/-- Claim C3: if no hazard-free route exists but a hazard-crossing route
does, `updateInstructions` returns a valid (hazard-crossing) route together
with a non-empty warning; if no route exists at all, it returns the terminal
no-path payload with a null path; and when the strict phase succeeds the
warning stays empty — the relaxed phase is consulted only after the strict
phase fails. -/
theorem claim_C3_fallback (m : Grid) (u e : Pos) :
    ((¬ ∃ l, OkPath (createFireZoneMap m) (createFireZoneMap m) false u e l) →
      (∃ l, OkPath (createFireZoneMap m) (createFireZoneMap m) true u e l) →
      ∃ p, (updateInstructions m u e).path = some p ∧
        OkPath (createFireZoneMap m) (createFireZoneMap m) true u e p ∧
        (updateInstructions m u e).warning ≠ "") ∧
    ((¬ ∃ l, OkPath (createFireZoneMap m) (createFireZoneMap m) true u e l) →
      updateInstructions m u e =
        { path := none,
          instructions := ["ERROR: No path to exit found. Seek immediate assistance!"],
          warning := "No safe path to exit available." }) ∧
    ((∃ l, OkPath (createFireZoneMap m) (createFireZoneMap m) false u e l) →
      (updateInstructions m u e).warning = "") := by
  refine ⟨?_, ?_, ?_⟩
  · intro hns hex
    have hstrict : findPath (createFireZoneMap m) (createFireZoneMap m) u e false =
        .noPath := findPath_noPath_of_no_path hns
    obtain ⟨p, hrel, hokp, -⟩ := findPath_found_of_path hex
    have heq : updateInstructions m u e =
        { path := some p, instructions := generateNaturalInstructions p,
          warning := "WARNING: This path passes through fire zones. Proceed with extreme caution!" } := by
      unfold updateInstructions
      simp only [hstrict, hrel]
    rw [heq]
    refine ⟨p, rfl, hokp, ?_⟩
    show "WARNING: This path passes through fire zones. Proceed with extreme caution!" ≠ ""
    decide
  · intro hnone
    have hnstrict : ¬ ∃ l, OkPath (createFireZoneMap m) (createFireZoneMap m) false u e l := by
      rintro ⟨l, hl⟩
      exact hnone ⟨l, okPath_mono hl⟩
    have hstrict : findPath (createFireZoneMap m) (createFireZoneMap m) u e false =
        .noPath := findPath_noPath_of_no_path hnstrict
    have hrel : findPath (createFireZoneMap m) (createFireZoneMap m) u e true =
        .noPath := findPath_noPath_of_no_path hnone
    unfold updateInstructions
    simp only [hstrict, hrel]
  · rintro hex
    obtain ⟨p, hstrict, -, -⟩ := findPath_found_of_path hex
    unfold updateInstructions
    simp only [hstrict]

/-- Claim C6 (code bug evaluation): on a zero-length path the instruction
generator does not short-circuit — it still emits the zero-distance
straight-line instruction before the closing instruction. -/
theorem claim_C6_code_bug_eval :
    generateNaturalInstructions [⟨0, 0⟩] =
      ["Go straight 0 meters", "You have reached the exit"] := by
  decide

/-- Claim C5 (counterexample): the terminal no-path payload carries only
warning, instructions and cursor −1 — it has no layout field, so the two
payload shapes do not both carry all four fields. -/
theorem claim_C5_counterexample :
    processLayout
        ['0', '0', '0', '|', '0', 'U', '0', '|', '0', '0', '0', '|', 'S', '0', '0'] =
      some { layout := none,
             warning := "ERROR: No path to exit found. Seek immediate assistance!",
             instructions := ["No safe path to exit available. Seek immediate assistance!"],
             currentInstructionIndex := -1 } := by
  decide

/-- Claim C5 (amended): every payload handed to the persistence sink is a
single record that is either the success payload — layout present, cursor
0 — or the no-path payload — no layout field, the fixed warning and
instruction strings, cursor −1. -/
theorem claim_C5_amended (layout : List Char) (d : UpdatedData)
    (h : processLayout layout = some d) :
    (d.currentInstructionIndex = 0 ∧ d.layout ≠ none) ∨
    (d.currentInstructionIndex = -1 ∧ d.layout = none ∧
      d.warning = "ERROR: No path to exit found. Seek immediate assistance!" ∧
      d.instructions = ["No safe path to exit available. Seek immediate assistance!"]) := by
  unfold processLayout at h
  cases hfu : findPosition (parseLayout layout) 'U' <;>
    cases hfs : findPosition (parseLayout layout) 'S' <;>
    simp only [hfu, hfs] at h
  case none.none => exact Option.noConfusion h
  case none.some => exact Option.noConfusion h
  case some.none => exact Option.noConfusion h
  case some.some u s =>
    cases hp : (updateInstructions (parseLayout layout) u s).path <;>
      simp only [hp] at h
    · injection h with h2
      rw [← h2]
      exact Or.inr ⟨rfl, rfl, rfl, rfl⟩
    · injection h with h2
      rw [← h2]
      exact Or.inl ⟨rfl, by simp⟩

/-! ### Listener model lemmas -/

theorem runAttempt_skip {l : List Char} {st : ListenerState}
    (h : st.lastProcessedLayout = some l) : runAttempt l st = (st, true) := by
  unfold runAttempt
  rw [if_pos h]

theorem runAttempt_new {l : List Char} {st : ListenerState}
    (h : st.lastProcessedLayout ≠ some l) :
    (runAttempt l st).1.cycles = st.cycles + 1 ∧
    (runAttempt l st).1.lastProcessedLayout = some l ∧
    (runAttempt l st).1.isProcessing = st.isProcessing := by
  obtain ⟨ip, llp, cy, pr, wa, wo, dl⟩ := st
  unfold runAttempt
  rw [if_neg h]
  rcases hpl : processLayout l with - | d <;> simp only [hpl]
  · exact ⟨trivial, trivial, trivial⟩
  · cases wo with
    | nil => exact ⟨rfl, rfl, rfl⟩
    | cons b rest => exact ⟨rfl, rfl, rfl⟩

theorem exponentialBackoff_succ (l : List Char) (base r i : Nat) (st : ListenerState) :
    exponentialBackoff l base (r + 1) i st =
      if (runAttempt l st).2 then ((runAttempt l st).1, true)
      else if r = 0 then ((runAttempt l st).1, false)
      else exponentialBackoff l base r (i + 1)
        { (runAttempt l st).1 with
          delays := (runAttempt l st).1.delays ++ [base * 2 ^ i] } := rfl

theorem exponentialBackoff_skip {l : List Char} {base : Nat} {st : ListenerState}
    (h : st.lastProcessedLayout = some l) (r i : Nat) :
    exponentialBackoff l base (r + 1) i st = (st, true) := by
  rw [exponentialBackoff_succ, runAttempt_skip h]
  rfl

theorem exponentialBackoff_new {l : List Char} {base : Nat} {st : ListenerState}
    (h : st.lastProcessedLayout ≠ some l) (r i : Nat) :
    (exponentialBackoff l base (r + 1) i st).1.cycles = st.cycles + 1 ∧
    (exponentialBackoff l base (r + 1) i st).1.lastProcessedLayout = some l ∧
    (exponentialBackoff l base (r + 1) i st).1.isProcessing = st.isProcessing := by
  obtain ⟨h1, h2, h3⟩ := runAttempt_new h
  rw [exponentialBackoff_succ]
  by_cases hr2 : (runAttempt l st).2 = true
  · rw [if_pos hr2]
    exact ⟨h1, h2, h3⟩
  · rw [if_neg hr2]
    cases r with
    | zero =>
      rw [if_pos rfl]
      exact ⟨h1, h2, h3⟩
    | succ r' =>
      rw [if_neg (Nat.succ_ne_zero r')]
      rw [exponentialBackoff_skip (show ({ (runAttempt l st).1 with
        delays := (runAttempt l st).1.delays ++ [base * 2 ^ i] }).lastProcessedLayout =
          some l from h2) r' (i + 1)]
      exact ⟨h1, h2, h3⟩

theorem deliverSnapshot_skip {l : List Char} {st : ListenerState}
    (hbusy : st.isProcessing = false) (hlast : st.lastProcessedLayout = some l) :
    deliverSnapshot l st = (st, true) := by
  unfold deliverSnapshot
  rw [if_neg (by simp [hbusy])]
  rw [show (5 : Nat) = 4 + 1 from rfl,
    exponentialBackoff_skip (show ({ st with isProcessing := true }).lastProcessedLayout =
      some l from hlast) 4 0]
  obtain ⟨ip, llp, cy, pr, wa, wo, dl⟩ := st
  simp only at hbusy
  subst hbusy
  rfl

theorem deliverSnapshot_new {l : List Char} {st : ListenerState}
    (hbusy : st.isProcessing = false) (hlast : st.lastProcessedLayout ≠ some l) :
    (deliverSnapshot l st).1.cycles = st.cycles + 1 ∧
    (deliverSnapshot l st).1.lastProcessedLayout = some l ∧
    (deliverSnapshot l st).1.isProcessing = false := by
  unfold deliverSnapshot
  rw [if_neg (by simp [hbusy])]
  obtain ⟨h1, h2, h3⟩ := exponentialBackoff_new
    (show ({ st with isProcessing := true }).lastProcessedLayout ≠ some l from hlast) 4 0
  rw [show (5 : Nat) = 4 + 1 from rfl]
  exact ⟨h1, h2, rfl⟩

/-- Claim C9: delivering a snapshot whose layout equals the stored
last-processed fingerprint is a complete no-op, and two consecutive
deliveries of an identical (new) fingerprint run exactly one recompute
cycle. -/
theorem claim_C9_debounce (st : ListenerState) (l : List Char)
    (hbusy : st.isProcessing = false) :
    (st.lastProcessedLayout = some l → deliverSnapshot l st = (st, true)) ∧
    (st.lastProcessedLayout ≠ some l →
      (deliverSnapshot l st).1.cycles = st.cycles + 1 ∧
      (deliverSnapshot l ((deliverSnapshot l st).1)).1.cycles = st.cycles + 1) := by
  refine ⟨fun hl => deliverSnapshot_skip hbusy hl, fun hl => ?_⟩
  obtain ⟨h1, h2, h3⟩ := deliverSnapshot_new hbusy hl
  refine ⟨h1, ?_⟩
  rw [deliverSnapshot_skip h3 h2]
  exact h1

/-- Claim C4 (code bug evaluation): delivering a layout to a fresh listener
whose persistence sink rejects every write yields exactly one write attempt,
one recompute, a single backoff delay of 1000 ms, and an overall success —
the fingerprint was recorded before the write, so the retry re-runs the
whole closure, which self-debounces instead of retrying the write. -/
theorem claim_C4_code_bug_eval :
    deliverSnapshot ['U', '.', 'S']
        { isProcessing := false, lastProcessedLayout := none, cycles := 0,
          pathfindRuns := 0, writeAttempts := 0,
          writeOutcomes := [false, false, false, false, false], delays := [] } =
      ({ isProcessing := false, lastProcessedLayout := some ['U', '.', 'S'], cycles := 1,
         pathfindRuns := 1, writeAttempts := 1,
         writeOutcomes := [false, false, false, false], delays := [1000] }, true) := by
  decide

/-! ### Witnesses: the claim theorems applied at concrete inputs -/

/-- Witness for C1 at a concrete 3×3 grid with a fire-free route. -/
theorem claim_C1_strict_optimal_witness :
    ∃ p, findPath [['U', '.', '.'], ['.', '.', '.'], ['.', '.', 'S']]
        [['U', '.', '.'], ['.', '.', '.'], ['.', '.', 'S']] ⟨0, 0⟩ ⟨2, 2⟩ false = .found p ∧
      OkPath [['U', '.', '.'], ['.', '.', '.'], ['.', '.', 'S']]
        [['U', '.', '.'], ['.', '.', '.'], ['.', '.', 'S']] false ⟨0, 0⟩ ⟨2, 2⟩ p ∧
      ∀ l, OkPath [['U', '.', '.'], ['.', '.', '.'], ['.', '.', 'S']]
        [['U', '.', '.'], ['.', '.', '.'], ['.', '.', 'S']] false ⟨0, 0⟩ ⟨2, 2⟩ l →
        p.length ≤ l.length :=
  claim_C1_strict_optimal _ _ _ _
    ⟨[⟨0, 0⟩, ⟨1, 0⟩, ⟨2, 0⟩, ⟨2, 1⟩, ⟨2, 2⟩], by
      refine ⟨rfl, rfl, ?_, by decide⟩
      simp only [List.chain'_cons, List.chain'_singleton]
      exact ⟨by decide, by decide, by decide, by decide⟩⟩

/-- Witness for C2 at a concrete rectangular 3×3 grid with one fire cell. -/
theorem claim_C2_hazard_expansion_witness :
    (createFireZoneMap [['F', '.', '.'], ['.', '.', '.'], ['.', '.', '.']]).length =
      ([['F', '.', '.'], ['.', '.', '.'], ['.', '.', '.']] : Grid).length ∧
    (∀ v, ((createFireZoneMap [['F', '.', '.'], ['.', '.', '.'], ['.', '.', '.']]).getD v
        []).length =
      (([['F', '.', '.'], ['.', '.', '.'], ['.', '.', '.']] : Grid).getD v []).length) ∧
    ∀ u v, u < width [['F', '.', '.'], ['.', '.', '.'], ['.', '.', '.']] →
      v < height [['F', '.', '.'], ['.', '.', '.'], ['.', '.', '.']] →
      cellAtN (createFireZoneMap [['F', '.', '.'], ['.', '.', '.'], ['.', '.', '.']]) u v =
        if cellAtN [['F', '.', '.'], ['.', '.', '.'], ['.', '.', '.']] u v ≠ 'F' ∧
            cellAtN [['F', '.', '.'], ['.', '.', '.'], ['.', '.', '.']] u v ≠ '0' ∧
            (∃ fx < width [['F', '.', '.'], ['.', '.', '.'], ['.', '.', '.']],
              ∃ fy < height [['F', '.', '.'], ['.', '.', '.'], ['.', '.', '.']],
                cellAtN [['F', '.', '.'], ['.', '.', '.'], ['.', '.', '.']] fx fy = 'F' ∧
                max ((fx : Int) - u).natAbs ((fy : Int) - v).natAbs = 1)
        then 'Z' else cellAtN [['F', '.', '.'], ['.', '.', '.'], ['.', '.', '.']] u v :=
  claim_C2_hazard_expansion [['F', '.', '.'], ['.', '.', '.'], ['.', '.', '.']] (by decide)

/-- Witness for C7 at a concrete grid carrying a hazard-buffer cell, with
crossing allowed. -/
theorem claim_C7_tiebreak_witness :
    ∃ p, findPath [['U', 'Z', '.'], ['.', '.', 'S']] [['U', 'Z', '.'], ['.', '.', 'S']]
        ⟨0, 0⟩ ⟨2, 1⟩ true = .found p ∧
      OkPath [['U', 'Z', '.'], ['.', '.', 'S']] [['U', 'Z', '.'], ['.', '.', 'S']]
        true ⟨0, 0⟩ ⟨2, 1⟩ p ∧
      ∀ l, OkPath [['U', 'Z', '.'], ['.', '.', 'S']] [['U', 'Z', '.'], ['.', '.', 'S']]
          true ⟨0, 0⟩ ⟨2, 1⟩ l → l.length = p.length →
        pathCrossings [['U', 'Z', '.'], ['.', '.', 'S']] p ≤
          pathCrossings [['U', 'Z', '.'], ['.', '.', 'S']] l :=
  claim_C7_tiebreak _ _ _ _ true
    ⟨[⟨0, 0⟩, ⟨0, 1⟩, ⟨1, 1⟩, ⟨2, 1⟩], by
      refine ⟨rfl, rfl, ?_, by decide⟩
      simp only [List.chain'_cons, List.chain'_singleton]
      exact ⟨by decide, by decide, by decide⟩⟩

/-- Witness for C10: exit cell diagonally adjacent to a fire cell. -/
theorem claim_C10_strict_fails_witness :
    findPath (createFireZoneMap [['U', '.', 'F'], ['.', '.', 'S']])
        (createFireZoneMap [['U', '.', 'F'], ['.', '.', 'S']]) ⟨0, 0⟩ ⟨2, 1⟩ false =
      .noPath ∧
    (updateInstructions [['U', '.', 'F'], ['.', '.', 'S']] ⟨0, 0⟩ ⟨2, 1⟩).warning ≠ "" :=
  claim_C10_strict_fails [['U', '.', 'F'], ['.', '.', 'S']] (by decide) ⟨0, 0⟩ 2 1
    (by decide) (by decide) (by decide) (by decide) (by decide) (by decide)

/-- Witness for the amended C5: the success payload of a concrete layout. -/
theorem claim_C5_amended_witness :
    (({ layout := some ['U', 'P', 'S'], warning := "",
        instructions := ["Go straight 20 meters", "You have reached the exit"],
        currentInstructionIndex := 0 } : UpdatedData).currentInstructionIndex = 0 ∧
      ({ layout := some ['U', 'P', 'S'], warning := "",
         instructions := ["Go straight 20 meters", "You have reached the exit"],
         currentInstructionIndex := 0 } : UpdatedData).layout ≠ none) ∨
    (({ layout := some ['U', 'P', 'S'], warning := "",
        instructions := ["Go straight 20 meters", "You have reached the exit"],
        currentInstructionIndex := 0 } : UpdatedData).currentInstructionIndex = -1 ∧
      ({ layout := some ['U', 'P', 'S'], warning := "",
         instructions := ["Go straight 20 meters", "You have reached the exit"],
         currentInstructionIndex := 0 } : UpdatedData).layout = none ∧
      ({ layout := some ['U', 'P', 'S'], warning := "",
         instructions := ["Go straight 20 meters", "You have reached the exit"],
         currentInstructionIndex := 0 } : UpdatedData).warning =
        "ERROR: No path to exit found. Seek immediate assistance!" ∧
      ({ layout := some ['U', 'P', 'S'], warning := "",
         instructions := ["Go straight 20 meters", "You have reached the exit"],
         currentInstructionIndex := 0 } : UpdatedData).instructions =
        ["No safe path to exit available. Seek immediate assistance!"]) :=
  claim_C5_amended ['U', '.', 'S'] _ (by decide)

/-- Witness for C9 at a fresh listener state and a one-cell layout. -/
theorem claim_C9_debounce_witness :
    (({ isProcessing := false, lastProcessedLayout := none, cycles := 0,
        pathfindRuns := 0, writeAttempts := 0, writeOutcomes := [],
        delays := [] } : ListenerState).lastProcessedLayout = some ['U'] →
      deliverSnapshot ['U']
          { isProcessing := false, lastProcessedLayout := none, cycles := 0,
            pathfindRuns := 0, writeAttempts := 0, writeOutcomes := [], delays := [] } =
        ({ isProcessing := false, lastProcessedLayout := none, cycles := 0,
           pathfindRuns := 0, writeAttempts := 0, writeOutcomes := [],
           delays := [] }, true)) ∧
    (({ isProcessing := false, lastProcessedLayout := none, cycles := 0,
        pathfindRuns := 0, writeAttempts := 0, writeOutcomes := [],
        delays := [] } : ListenerState).lastProcessedLayout ≠ some ['U'] →
      (deliverSnapshot ['U']
          { isProcessing := false, lastProcessedLayout := none, cycles := 0,
            pathfindRuns := 0, writeAttempts := 0, writeOutcomes := [],
            delays := [] }).1.cycles =
        ({ isProcessing := false, lastProcessedLayout := none, cycles := 0,
           pathfindRuns := 0, writeAttempts := 0, writeOutcomes := [],
           delays := [] } : ListenerState).cycles + 1 ∧
      (deliverSnapshot ['U'] ((deliverSnapshot ['U']
          { isProcessing := false, lastProcessedLayout := none, cycles := 0,
            pathfindRuns := 0, writeAttempts := 0, writeOutcomes := [],
            delays := [] }).1)).1.cycles =
        ({ isProcessing := false, lastProcessedLayout := none, cycles := 0,
           pathfindRuns := 0, writeAttempts := 0, writeOutcomes := [],
           delays := [] } : ListenerState).cycles + 1) :=
  claim_C9_debounce
    { isProcessing := false, lastProcessedLayout := none, cycles := 0,
      pathfindRuns := 0, writeAttempts := 0, writeOutcomes := [], delays := [] }
    ['U'] rfl

end ExitMatrix
